import Mathlib

/-!
# Verification of the `Maze` class (maze generation, BFS solving, rendering)

Shallow embedding of `python_guide_3d659f.py`.  The grid is modelled as a
total function `Coord → Char`; all cells that Python never creates
(out-of-bounds coordinates) are `'#'` and every observation of the grid in
the algorithms below is bounds-guarded exactly as in the source.  Python list
indexing on writes is modelled by `Maze.setCell`, which returns `none` where
Python would raise `IndexError`.  The two `while` loops are modelled with a
fuel parameter; fuel sufficiency for the supplied fuel values is proved, so
`some`-results coincide with the Python behaviour.  The random source
`random.choice` is modelled by a stream `cs : Nat → Nat` of uniform choices:
call number `k` picks element `cs k % length` of the non-empty candidate
list.
-/

namespace MazeModel

/-- Grid coordinates `(row, col)` as integers, mirroring Python int tuples. -/
abbrev Coord := Int × Int

/-- The maze object: dimensions, character grid, start and end coordinates.
`endPos` is the source's `self.end` (`end` is a Lean keyword). -/
structure Maze where
  width : Int
  height : Int
  grid : Coord → Char
  start : Coord
  endPos : Coord

/-- `Maze.__init__`: force both dimensions odd (Python `%` on ints agrees with
`Int.emod` for positive modulus), build the all-wall grid, and set the
conventional start `(1,1)` and end `(height-2, width-2)`. -/
def Maze.init (width height : Int) : Maze :=
  let width := if width % 2 = 0 then width + 1 else width
  let height := if height % 2 = 0 then height + 1 else height
  { width := width
    height := height
    grid := fun _ => '#'
    start := (1, 1)
    endPos := (height - 2, width - 2) }

/-- `Maze._is_valid(r, c)`. -/
def Maze.isValid (m : Maze) (r c : Int) : Prop :=
  0 ≤ r ∧ r < m.height ∧ 0 ≤ c ∧ c < m.width

instance (m : Maze) (r c : Int) : Decidable (m.isValid r c) :=
  inferInstanceAs (Decidable (0 ≤ r ∧ r < m.height ∧ 0 ≤ c ∧ c < m.width))

/-- Python write `self.grid[r][c] = ch`.  Out-of-range indices yield `none`
(Python raises `IndexError`); in-range writes update the grid function. -/
def Maze.setCell (m : Maze) (r c : Int) (ch : Char) : Option Maze :=
  if m.isValid r c then
    some { m with grid := fun p => if p = (r, c) then ch else m.grid p }
  else
    none

/-- The four 2-step carving directions of `generate`
(`[(0, 2), (0, -2), (2, 0), (-2, 0)]`). -/
def genDirections : List Coord := [(0, 2), (0, -2), (2, 0), (-2, 0)]

/-- The `unvisited_neighbors` list built by `generate` at cell `(r, c)`:
cells two units away that are in bounds and still walls, in source order. -/
def Maze.genNeighbors (m : Maze) (r c : Int) : List Coord :=
  genDirections.filterMap (fun d =>
    if m.isValid (r + d.1) (c + d.2) ∧ m.grid (r + d.1, c + d.2) = '#'
    then some (r + d.1, c + d.2) else none)

/-- `random.choice(unvisited_neighbors)` at cell `(r, c)`: the choice stream
`cs` picks, at step `k`, the element `cs k % length` of the non-empty
neighbour list (uniform choice abstracted as an arbitrary index). -/
def genPick (m : Maze) (r c : Int) (cs : Nat → Nat) (k : Nat) : Coord :=
  (m.genNeighbors r c).getD (cs k % (m.genNeighbors r c).length) (0, 0)

/-- The `while stack:` loop of `generate`.  The grid and the explicit DFS
stack are threaded; `cs` is the random-choice stream and `k` the number of
choices consumed so far.  Integer division `/` agrees with Python `//` on
the exact divisions `(±2)/2` performed here. -/
def genLoop : Nat → Maze → List Coord → (Nat → Nat) → Nat → Option Maze
  | 0, _, _, _, _ => none
  | _ + 1, m, [], _, _ => some m
  | fuel + 1, m, (r, c) :: rest, cs, k =>
    if (m.genNeighbors r c).isEmpty then
      genLoop fuel m rest cs k
    else
      match m.setCell (genPick m r c cs k).1 (genPick m r c cs k).2 ' ' with
      | none => none
      | some m1 =>
        match m1.setCell (r + ((genPick m r c cs k).1 - r) / 2)
            (c + ((genPick m r c cs k).2 - c) / 2) ' ' with
        | none => none
        | some m2 => genLoop fuel m2 (genPick m r c cs k :: (r, c) :: rest) cs (k + 1)

/-- Fuel bound for `genLoop`: strictly more than twice the number of grid
cells plus the initial stack length. -/
def genFuel (m : Maze) : Nat := 2 * (m.height.toNat * m.width.toNat) + 2

/-- `Maze.generate`: mark the start cell as path, run the DFS carving loop,
then force the `'S'` and `'E'` markers. -/
def Maze.generate (m : Maze) (cs : Nat → Nat) : Option Maze :=
  match m.setCell m.start.1 m.start.2 ' ' with
  | none => none
  | some m0 =>
    match genLoop (genFuel m) m0 [m.start] cs 0 with
    | none => none
    | some m1 =>
      match m1.setCell m1.start.1 m1.start.2 'S' with
      | none => none
      | some m2 => m2.setCell m2.endPos.1 m2.endPos.2 'E'

/-- The four 1-step BFS directions of `solve`
(`[(0, 1), (0, -1), (1, 0), (-1, 0)]`). -/
def solveDirections : List Coord := [(0, 1), (0, -1), (1, 0), (-1, 0)]

/-- The inner `for dr, dc in directions:` loop of `solve`: scan the given
directions from `cur`, enqueueing (at the back), marking visited and
recording the parent of every in-bounds, non-wall, unvisited neighbour. -/
def expandNbrs (m : Maze) (cur : Coord) :
    List Coord → List Coord → (Coord → Bool) → (Coord → Option Coord) →
      List Coord × (Coord → Bool) × (Coord → Option Coord)
  | [], q, vis, par => (q, vis, par)
  | d :: ds, q, vis, par =>
    if m.isValid (cur.1 + d.1) (cur.2 + d.2) ∧ m.grid (cur.1 + d.1, cur.2 + d.2) ≠ '#' ∧
        vis (cur.1 + d.1, cur.2 + d.2) = false then
      expandNbrs m cur ds (q ++ [(cur.1 + d.1, cur.2 + d.2)])
        (fun p => decide (p = (cur.1 + d.1, cur.2 + d.2)) || vis p)
        (fun p => if p = (cur.1 + d.1, cur.2 + d.2) then some cur else par p)
    else
      expandNbrs m cur ds q vis par

/-- The `while queue:` loop of `solve`.  Returns the parent map when `end`
is dequeued (`path_found = True`), `none` when the queue empties. -/
def solveLoop : Nat → Maze → List Coord → (Coord → Bool) → (Coord → Option Coord) →
    Option (Coord → Option Coord)
  | 0, _, _, _, _ => none
  | _ + 1, _, [], _, _ => none
  | fuel + 1, m, cur :: rest, vis, par =>
    if cur = m.endPos then
      some par
    else
      solveLoop fuel m (expandNbrs m cur solveDirections rest vis par).1
        (expandNbrs m cur solveDirections rest vis par).2.1
        (expandNbrs m cur solveDirections rest vis par).2.2

/-- Fuel bound for `solveLoop`. -/
def solveFuel (m : Maze) : Nat := 2 * (m.height.toNat * m.width.toNat) + 2

/-- Fuel bound for the path-reconstruction loop. -/
def btFuel (m : Maze) : Nat := m.height.toNat * m.width.toNat + 3

/-- The reconstruction loop of `solve`
(`while current is not None: path.append(current); current = parent_map[current]`). -/
def backtrack : Nat → (Coord → Option Coord) → Option Coord → List Coord →
    Option (List Coord)
  | 0, _, _, _ => none
  | _ + 1, _, none, acc => some acc
  | fuel + 1, par, some cur, acc => backtrack fuel par (par cur) (acc ++ [cur])

/-- `Maze.solve`: BFS from `start`, then reconstruct the path from `end`
backwards through the parent map and reverse it.  The visited set starts as
`{start}` and the parent map sends `start` (and, like a Python dict lookup
that is never performed, every unvisited cell) to `none`. -/
def Maze.solve (m : Maze) : Option (List Coord) :=
  match solveLoop (solveFuel m) m [m.start]
      (fun p => decide (p = m.start)) (fun _ => none) with
  | none => none
  | some par =>
    match backtrack (btFuel m) par (some m.endPos) [] with
    | none => none
    | some path => some path.reverse

/-- `Maze.display`: render the grid one glyph per cell as a list of rows,
overlaying `'o'` on the cells of a supplied solution path other than `start`
and `end`.  Python mutates only a defensive copy of the grid
(`display_grid = [row[:] for row in self.grid]`), so the rendering is a pure
function of the maze; `if path:` skips the overlay for `None` and for the
empty list. -/
def Maze.display (m : Maze) (path : Option (List Coord)) : List String :=
  let dg : Coord → Char :=
    match path with
    | some l =>
      if l.isEmpty then m.grid
      else
        l.foldl (fun g p =>
          if p ≠ m.start ∧ p ≠ m.endPos then
            fun q => if q = p then 'o' else g q
          else g) m.grid
    | none => m.grid
  (List.range m.height.toNat).map (fun r =>
    String.mk ((List.range m.width.toNat).map (fun c => dg ((r : Int), (c : Int)))))

/-! ## Basic lemmas about the embedding -/

theorem Maze.setCell_eq_some {m m' : Maze} {r c : Int} {ch : Char}
    (h : m.setCell r c ch = some m') :
    m.isValid r c ∧ m'.width = m.width ∧ m'.height = m.height ∧
      m'.start = m.start ∧ m'.endPos = m.endPos ∧
      ∀ p, m'.grid p = if p = (r, c) then ch else m.grid p := by
  unfold Maze.setCell at h
  split at h
  · cases h
    exact ⟨‹_›, rfl, rfl, rfl, rfl, fun p => rfl⟩
  · cases h

theorem Maze.setCell_eq_none {m : Maze} {r c : Int} {ch : Char} :
    m.setCell r c ch = none ↔ ¬ m.isValid r c := by
  unfold Maze.setCell
  split <;> simp_all

theorem Maze.setCell_isValid {m : Maze} {r c : Int} {ch : Char} (h : m.isValid r c) :
    m.setCell r c ch =
      some { m with grid := fun p => if p = (r, c) then ch else m.grid p } := by
  unfold Maze.setCell
  simp [h]

/-- `setCell` changes nothing but the grid. -/
theorem Maze.setCell_fields {m m' : Maze} {r c : Int} {ch : Char}
    (h : m.setCell r c ch = some m') :
    m'.width = m.width ∧ m'.height = m.height ∧ m'.start = m.start ∧
      m'.endPos = m.endPos :=
  ⟨(Maze.setCell_eq_some h).2.1, (Maze.setCell_eq_some h).2.2.1,
    (Maze.setCell_eq_some h).2.2.2.1, (Maze.setCell_eq_some h).2.2.2.2.1⟩

/-- Validity is unaffected by grid rewrites. -/
theorem Maze.isValid_congr {m m' : Maze} (hw : m'.width = m.width)
    (hh : m'.height = m.height) (r c : Int) : m'.isValid r c ↔ m.isValid r c := by
  unfold Maze.isValid
  rw [hw, hh]

theorem genLoop_fields :
    ∀ (fuel : Nat) (m : Maze) (stack : List Coord) (cs : Nat → Nat) (k : Nat)
      (m' : Maze), genLoop fuel m stack cs k = some m' →
      m'.width = m.width ∧ m'.height = m.height ∧ m'.start = m.start ∧
        m'.endPos = m.endPos := by
  intro fuel
  induction fuel with
  | zero => intro m stack cs k m' h; cases h
  | succ fuel ih =>
    intro m stack cs k m' h
    match stack with
    | [] =>
      cases h
      exact ⟨rfl, rfl, rfl, rfl⟩
    | (r, c) :: rest =>
      rw [genLoop] at h
      split at h
      · exact ih m rest cs k m' h
      · split at h
        · exact Option.noConfusion h
        · rename_i m1 h1
          split at h
          · exact Option.noConfusion h
          · rename_i m2 h2
            have f1 := Maze.setCell_fields h1
            have f2 := Maze.setCell_fields h2
            have f3 := ih m2 (genPick m r c cs k :: (r, c) :: rest) cs (k + 1) m' h
            exact ⟨f3.1.trans (f2.1.trans f1.1), f3.2.1.trans (f2.2.1.trans f1.2.1),
              f3.2.2.1.trans (f2.2.2.1.trans f1.2.2.1),
              f3.2.2.2.trans (f2.2.2.2.trans f1.2.2.2)⟩

/-- `generate` changes nothing but the grid. -/
theorem Maze.generate_fields {m m' : Maze} {cs : Nat → Nat}
    (h : m.generate cs = some m') :
    m'.width = m.width ∧ m'.height = m.height ∧ m'.start = m.start ∧
      m'.endPos = m.endPos := by
  unfold Maze.generate at h
  split at h
  · exact Option.noConfusion h
  · rename_i m0 h0
    split at h
    · exact Option.noConfusion h
    · rename_i m1 h1
      split at h
      · exact Option.noConfusion h
      · rename_i m2 h2
        have f0 := Maze.setCell_fields h0
        have f1 := genLoop_fields _ _ _ _ _ _ h1
        have f2 := Maze.setCell_fields h2
        have f3 := Maze.setCell_fields h
        exact ⟨f3.1.trans (f2.1.trans (f1.1.trans f0.1)),
          f3.2.1.trans (f2.2.1.trans (f1.2.1.trans f0.2.1)),
          f3.2.2.1.trans (f2.2.2.1.trans (f1.2.2.1.trans f0.2.2.1)),
          f3.2.2.2.trans (f2.2.2.2.trans (f1.2.2.2.trans f0.2.2.2))⟩

/-! ## C4: constructor normalization -/

/-- **C4**: for all positive integer inputs, the constructor increments each
even dimension by exactly 1 and leaves odd dimensions unchanged, produces a
grid in which every in-bounds cell is the wall glyph `'#'`, and sets
`start = (1,1)` and `end = (height-2, width-2)` in the normalized
dimensions. -/
theorem C4_init_normalizes (w h : Int) (hw : 0 < w) (hh : 0 < h) :
    (Even w → (Maze.init w h).width = w + 1) ∧
    (¬ Even w → (Maze.init w h).width = w) ∧
    (Even h → (Maze.init w h).height = h + 1) ∧
    (¬ Even h → (Maze.init w h).height = h) ∧
    (∀ r c : Int, (Maze.init w h).isValid r c → (Maze.init w h).grid (r, c) = '#') ∧
    (Maze.init w h).start = (1, 1) ∧
    (Maze.init w h).endPos = ((Maze.init w h).height - 2, (Maze.init w h).width - 2) := by
  have ew : (Maze.init w h).width = if w % 2 = 0 then w + 1 else w := rfl
  have eh : (Maze.init w h).height = if h % 2 = 0 then h + 1 else h := rfl
  refine ⟨?_, ?_, ?_, ?_, fun r c _ => rfl, rfl, rfl⟩
  · intro he
    rw [ew, if_pos (Int.even_iff.mp he)]
  · intro he
    rw [ew, if_neg (fun h0 => he (Int.even_iff.mpr h0))]
  · intro he
    rw [eh, if_pos (Int.even_iff.mp he)]
  · intro he
    rw [eh, if_neg (fun h0 => he (Int.even_iff.mpr h0))]

/-- Witness for C4 at the concrete input `(4, 7)`. -/
theorem C4_init_normalizes_witness :
    (Even (4 : Int) → (Maze.init 4 7).width = 4 + 1) ∧
    (¬ Even (4 : Int) → (Maze.init 4 7).width = 4) ∧
    (Even (7 : Int) → (Maze.init 4 7).height = 7 + 1) ∧
    (¬ Even (7 : Int) → (Maze.init 4 7).height = 7) ∧
    (∀ r c : Int, (Maze.init 4 7).isValid r c → (Maze.init 4 7).grid (r, c) = '#') ∧
    (Maze.init 4 7).start = (1, 1) ∧
    (Maze.init 4 7).endPos = ((Maze.init 4 7).height - 2, (Maze.init 4 7).width - 2) :=
  C4_init_normalizes 4 7 (by norm_num) (by norm_num)

/-! ## C7: non-positive dimensions are (not) rejected -/

/-- **C7** counterexample: constructing with the non-positive dimensions
`(0, 0)` is *not* rejected.  The source constructor has no validation path at
all: it normalizes `0` to `1` and returns a degenerate all-wall `1×1` grid,
contradicting the claim that construction fails fast with an
`InvalidDimension` error rather than producing a degenerate grid. -/
theorem C7_cex_not_rejected :
    (Maze.init 0 0).width = 1 ∧ (Maze.init 0 0).height = 1 ∧
      (Maze.init 0 0).grid (0, 0) = '#' ∧ (Maze.init 0 0).start = (1, 1) :=
  ⟨rfl, rfl, rfl, rfl⟩

/-- **C7** (amended): constructing a Maze with non-positive width or height is
*not* rejected; the constructor applies the same even-increment normalization
and returns a degenerate all-wall grid whose dimensions are at most 1. -/
theorem C7_amended_degenerate (w h : Int) (hw : w ≤ 0) (hh : h ≤ 0) :
    (Maze.init w h).width = (if w % 2 = 0 then w + 1 else w) ∧
    (Maze.init w h).height = (if h % 2 = 0 then h + 1 else h) ∧
    (∀ r c : Int, (Maze.init w h).isValid r c → (Maze.init w h).grid (r, c) = '#') ∧
    (Maze.init w h).width ≤ 1 ∧ (Maze.init w h).height ≤ 1 := by
  have ew : (Maze.init w h).width = if w % 2 = 0 then w + 1 else w := rfl
  have eh : (Maze.init w h).height = if h % 2 = 0 then h + 1 else h := rfl
  refine ⟨ew, eh, fun r c _ => rfl, ?_, ?_⟩
  · rw [ew]
    split <;> omega
  · rw [eh]
    split <;> omega

/-- Witness for the amended C7 at the concrete input `(0, -3)`. -/
theorem C7_amended_degenerate_witness :
    (Maze.init 0 (-3)).width = (if (0 : Int) % 2 = 0 then 0 + 1 else 0) ∧
    (Maze.init 0 (-3)).height = (if (-3 : Int) % 2 = 0 then -3 + 1 else -3) ∧
    (∀ r c : Int, (Maze.init 0 (-3)).isValid r c → (Maze.init 0 (-3)).grid (r, c) = '#') ∧
    (Maze.init 0 (-3)).width ≤ 1 ∧ (Maze.init 0 (-3)).height ≤ 1 :=
  C7_amended_degenerate 0 (-3) (by norm_num) (by norm_num)

/-! ## C9: determinism given the random-choice stream -/

/-- **C9**: two `Maze` instances constructed with the same width and height,
generated and solved with the same sequence of uniform-random choices,
produce identical generate results (hence identical grids) and identical
solve results.  All randomness of the source lives in `random.choice`,
modelled by the stream `cs`; with `cs` fixed the whole pipeline is a pure
function of the constructor arguments. -/
theorem C9_deterministic (w h : Int) (cs : Nat → Nat) (m1 m2 : Maze)
    (h1 : m1 = Maze.init w h) (h2 : m2 = Maze.init w h) :
    m1.generate cs = m2.generate cs ∧
      (m1.generate cs).bind Maze.solve = (m2.generate cs).bind Maze.solve := by
  subst h1
  subst h2
  exact ⟨rfl, rfl⟩

/-- Witness for C9 at the concrete input `(5, 5)` with the all-zero choice
stream. -/
theorem C9_deterministic_witness :
    (Maze.init 5 5).generate (fun _ => 0) = (Maze.init 5 5).generate (fun _ => 0) ∧
      ((Maze.init 5 5).generate (fun _ => 0)).bind Maze.solve =
        ((Maze.init 5 5).generate (fun _ => 0)).bind Maze.solve :=
  C9_deterministic 5 5 (fun _ => 0) (Maze.init 5 5) (Maze.init 5 5) rfl rfl

/-! ## C8: display overlays the solution without touching the grid -/

/-- Pointwise value of the overlay fold performed by `display`. -/
theorem display_foldl_apply (m : Maze) (l : List Coord) (g : Coord → Char) (q : Coord) :
    (l.foldl (fun g p =>
        if p ≠ m.start ∧ p ≠ m.endPos then fun q' => if q' = p then 'o' else g q'
        else g) g) q =
      if q ∈ l ∧ q ≠ m.start ∧ q ≠ m.endPos then 'o' else g q := by
  induction l generalizing g with
  | nil => simp
  | cons a l ih =>
    rw [List.foldl_cons, ih]
    by_cases hq : q ∈ l ∧ q ≠ m.start ∧ q ≠ m.endPos
    · rw [if_pos hq, if_pos ⟨List.mem_cons_of_mem a hq.1, hq.2⟩]
    · rw [if_neg hq]
      by_cases ha : a ≠ m.start ∧ a ≠ m.endPos
      · rw [if_pos ha]
        by_cases hqa : q = a
        · subst hqa
          rw [if_pos rfl, if_pos ⟨List.mem_cons_self q l, ha⟩]
        · rw [if_neg hqa, if_neg (fun hc =>
            hq ⟨(List.mem_cons.mp hc.1).resolve_left hqa, hc.2⟩)]
      · rw [if_neg ha, if_neg]
        intro hc
        rcases List.mem_cons.mp hc.1 with h | h
        · exact ha (h ▸ hc.2)
        · exact hq ⟨h, hc.2⟩

/-- **C8**: `display` is a pure rendering of the maze — in the embedding it
returns only the textual rows, mirroring that Python overlays the solution on
a defensive copy (`display_grid = [row[:] for row in self.grid]`) and leaves
`self.grid` untouched — and for an in-bounds path argument the produced grid
shows the `'o'` glyph at exactly the path coordinates other than `start` and
`end`, every other cell showing its grid glyph. -/
theorem C8_display_pure_overlay (m : Maze) (l : List Coord)
    (hin : ∀ p ∈ l, m.isValid p.1 p.2) :
    m.display (some l) =
      (List.range m.height.toNat).map (fun r =>
        String.mk ((List.range m.width.toNat).map (fun c =>
          if ((r : Int), (c : Int)) ∈ l ∧ ((r : Int), (c : Int)) ≠ m.start ∧
              ((r : Int), (c : Int)) ≠ m.endPos then 'o'
          else m.grid ((r : Int), (c : Int))))) := by
  clear hin
  rcases eq_or_ne l [] with rfl | hl
  · simp [Maze.display]
  · unfold Maze.display
    have hne : l.isEmpty = false := by
      cases l with
      | nil => exact absurd rfl hl
      | cons a l => rfl
    dsimp only
    rw [hne]
    simp only [Bool.false_eq_true, if_false, display_foldl_apply]

/-- Witness for C8 at a concrete maze and path. -/
theorem C8_display_pure_overlay_witness :
    (Maze.init 5 5).display (some [(1, 1), (1, 2)]) =
      (List.range (Maze.init 5 5).height.toNat).map (fun r =>
        String.mk ((List.range (Maze.init 5 5).width.toNat).map (fun c =>
          if ((r : Int), (c : Int)) ∈ [((1 : Int), (1 : Int)), (1, 2)] ∧
              ((r : Int), (c : Int)) ≠ (Maze.init 5 5).start ∧
              ((r : Int), (c : Int)) ≠ (Maze.init 5 5).endPos then 'o'
          else (Maze.init 5 5).grid ((r : Int), (c : Int))))) :=
  C8_display_pure_overlay (Maze.init 5 5) [(1, 1), (1, 2)] (by decide)

/-! ## Simple paths through open cells

`adjStep` is 4-directional adjacency; `PathTo O a b l` says the list `l` is a
simple path (no repeated cell) from `a` to `b` whose every cell satisfies
`O` and whose consecutive cells are adjacent.  "Perfect maze" below means:
between any two open cells there is exactly one such path. -/

/-- 4-directional adjacency: Manhattan distance exactly 1. -/
def adjStep (p q : Coord) : Prop := (p.1 - q.1).natAbs + (p.2 - q.2).natAbs = 1

instance (p q : Coord) : Decidable (adjStep p q) :=
  inferInstanceAs (Decidable ((p.1 - q.1).natAbs + (p.2 - q.2).natAbs = 1))

theorem adjStep_symm {p q : Coord} (h : adjStep p q) : adjStep q p := by
  unfold adjStep at *
  omega

theorem adjStep_irrefl (p : Coord) : ¬ adjStep p p := by
  unfold adjStep
  omega

/-- Simple paths from `a` to `b` through cells satisfying `O`: the list of
cells visited, `a` first and `b` last, consecutive cells 4-adjacent, no cell
repeated. -/
inductive PathTo (O : Coord → Prop) : Coord → Coord → List Coord → Prop
  | single (a : Coord) : O a → PathTo O a a [a]
  | cons (a b c : Coord) (l : List Coord) : O a → adjStep a b → a ∉ l →
      PathTo O b c l → PathTo O a c (a :: l)

theorem PathTo.ne_nil {O : Coord → Prop} {a b : Coord} {l : List Coord}
    (h : PathTo O a b l) : l ≠ [] := by
  cases h <;> simp

theorem PathTo.head_shape {O : Coord → Prop} {a b : Coord} {l : List Coord}
    (h : PathTo O a b l) : ∃ t, l = a :: t := by
  cases h with
  | single a ha => exact ⟨[], rfl⟩
  | cons a b c l ha hadj hnotin hp => exact ⟨l, rfl⟩

theorem PathTo.start_mem {O : Coord → Prop} {a b : Coord} {l : List Coord}
    (h : PathTo O a b l) : a ∈ l := by
  obtain ⟨t, rfl⟩ := h.head_shape
  exact List.mem_cons_self a t

theorem PathTo.end_mem {O : Coord → Prop} {a b : Coord} {l : List Coord}
    (h : PathTo O a b l) : b ∈ l := by
  induction h with
  | single a ha => exact List.mem_singleton.mpr rfl
  | cons a b c l ha hadj hnotin hp ih => exact List.mem_cons_of_mem a ih

theorem PathTo.mem_open {O : Coord → Prop} {a b : Coord} {l : List Coord}
    (h : PathTo O a b l) : ∀ x ∈ l, O x := by
  induction h with
  | single a ha =>
    intro x hx
    rw [List.mem_singleton] at hx
    exact hx ▸ ha
  | cons a b c l ha hadj hnotin hp ih =>
    intro x hx
    rcases List.mem_cons.mp hx with rfl | hx
    · exact ha
    · exact ih x hx

theorem PathTo.nodup {O : Coord → Prop} {a b : Coord} {l : List Coord}
    (h : PathTo O a b l) : l.Nodup := by
  induction h with
  | single a ha => exact List.nodup_singleton a
  | cons a b c l ha hadj hnotin hp ih => exact List.nodup_cons.mpr ⟨hnotin, ih⟩

theorem PathTo.mono {O O' : Coord → Prop} (hOO : ∀ x, O x → O' x)
    {a b : Coord} {l : List Coord} (h : PathTo O a b l) : PathTo O' a b l := by
  induction h with
  | single a ha => exact PathTo.single a (hOO a ha)
  | cons a b c l ha hadj hnotin hp ih => exact PathTo.cons a b c l (hOO a ha) hadj hnotin ih

theorem PathTo.restrict {O O' : Coord → Prop} {a b : Coord} {l : List Coord}
    (h : PathTo O a b l) (hO : ∀ x ∈ l, O' x) : PathTo O' a b l := by
  induction h with
  | single a ha => exact PathTo.single a (hO a (List.mem_singleton.mpr rfl))
  | cons a b c l ha hadj hnotin hp ih =>
    exact PathTo.cons a b c l (hO a (List.mem_cons_self a l)) hadj hnotin
      (ih (fun x hx => hO x (List.mem_cons_of_mem a hx)))

theorem PathTo.snoc {O : Coord → Prop} {a b c : Coord} {l : List Coord}
    (h : PathTo O a b l) (hc : O c) (hadj : adjStep b c) (hcl : c ∉ l) :
    PathTo O a c (l ++ [c]) := by
  induction h with
  | single a ha =>
    refine PathTo.cons a c c [c] ha hadj ?_ (PathTo.single c hc)
    simp only [List.mem_singleton]
    intro hac
    exact hcl (hac ▸ List.mem_singleton.mpr rfl)
  | cons a b d l ha hadj0 hnotin hp ih =>
    refine PathTo.cons a b c (l ++ [c]) ha hadj0 ?_ (ih hadj (fun hcm => hcl (List.mem_cons_of_mem a hcm)))
    intro hm
    rcases List.mem_append.mp hm with hm | hm
    · exact hnotin hm
    · rw [List.mem_singleton] at hm
      exact hcl (hm ▸ List.mem_cons_self a l)

theorem PathTo.reverse {O : Coord → Prop} {a b : Coord} {l : List Coord}
    (h : PathTo O a b l) : PathTo O b a l.reverse := by
  induction h with
  | single a ha => exact PathTo.single a ha
  | cons a b c l ha hadj hnotin hp ih =>
    rw [List.reverse_cons]
    exact ih.snoc ha (adjStep_symm hadj) (fun hm => hnotin (List.mem_reverse.mp hm))

/-- A simple path from a cell to itself is the singleton. -/
theorem PathTo.self_eq {O : Coord → Prop} {a : Coord} {l : List Coord}
    (h : PathTo O a a l) : l = [a] := by
  cases h with
  | single => rfl
  | cons a b c l ha hadj hnotin hp => exact absurd hp.end_mem hnotin

/-- Inversion at the head of a path whose list is exposed as a `cons`. -/
theorem PathTo.cons_inv {O : Coord → Prop} {a b x : Coord} {t : List Coord}
    (h : PathTo O a b (x :: t)) :
    a = x ∧ O a ∧ (t = [] → b = a) ∧
      ∀ y t', t = y :: t' → adjStep a y ∧ a ∉ t ∧ PathTo O y b t := by
  cases h with
  | single a ha =>
    exact ⟨rfl, ha, fun _ => rfl, fun y t' ht => List.noConfusion ht⟩
  | cons a c d l ha hadj hnotin hp =>
    refine ⟨rfl, ha, ?_, ?_⟩
    · intro ht
      subst ht
      exact absurd hp.ne_nil (fun _ => by simp_all)
    · intro y t' ht
      subst ht
      obtain ⟨t'', ht''⟩ := hp.head_shape
      have hcy : c = y := ((List.cons.injEq _ _ _ _).mp ht''.symm).1
      subst hcy
      exact ⟨hadj, hnotin, hp⟩

/-- Inversion at the far end of a path: either the path is the trivial
singleton, or it decomposes as a path to a last-but-one cell adjacent to
`b`. -/
theorem PathTo.snoc_inv {O : Coord → Prop} {a b : Coord} {l : List Coord}
    (h : PathTo O a b l) :
    (a = b ∧ l = [a]) ∨
      ∃ l' b', l = l' ++ [b] ∧ PathTo O a b' l' ∧ adjStep b' b ∧ b ∉ l' := by
  have hr := h.reverse
  obtain ⟨t, ht⟩ := hr.head_shape
  have hl : l = t.reverse ++ [b] := by
    have : l.reverse.reverse = (b :: t).reverse := by rw [ht]
    simpa using this
  have hr' : PathTo O b a (b :: t) := ht ▸ hr
  obtain ⟨-, hOb, hnil, hcons⟩ := hr'.cons_inv
  cases t with
  | nil =>
    left
    have hab : a = b := hnil rfl
    refine ⟨hab, ?_⟩
    rw [hl, hab]
    rfl
  | cons y t' =>
    right
    obtain ⟨hadj, hbn, hp⟩ := hcons y t' rfl
    exact ⟨(y :: t').reverse, y, by simpa using hl, hp.reverse, adjStep_symm hadj,
      fun hm => hbn (List.mem_reverse.mp hm)⟩

/-- A path splits at any of its cells into a path to the cell and a path
from it. -/
theorem PathTo.mem_split {O : Coord → Prop} {a b x : Coord} {l : List Coord}
    (h : PathTo O a b l) (hx : x ∈ l) :
    ∃ l1 l2, l = l1 ++ x :: l2 ∧ PathTo O a x (l1 ++ [x]) ∧ PathTo O x b (x :: l2) := by
  induction h with
  | single a ha =>
    rw [List.mem_singleton] at hx
    subst hx
    exact ⟨[], [], rfl, PathTo.single x ha, PathTo.single x ha⟩
  | cons a c d l ha hadj hnotin hp ih =>
    rcases List.mem_cons.mp hx with rfl | hx
    · exact ⟨[], l, rfl, PathTo.single x ha, PathTo.cons x c d l ha hadj hnotin hp⟩
    · obtain ⟨l1, l2, rfl, h1, h2⟩ := ih hx
      refine ⟨a :: l1, l2, rfl, ?_, h2⟩
      refine PathTo.cons a c x (l1 ++ [x]) ha hadj ?_ h1
      intro hm
      rcases List.mem_append.mp hm with hm | hm
      · exact hnotin (List.mem_append.mpr (Or.inl hm))
      · rw [List.mem_singleton] at hm
        subst hm
        exact hnotin (List.mem_append.mpr (Or.inr (List.mem_cons_self a l2)))

/-! ## Extending a unique-path graph by a pendant corridor

One carving step of `generate` opens two new cells: a connector wall `W`
adjacent to the stack-top junction `J`, and a fresh junction `J'` adjacent
only to `W`.  `uniquePaths_extend` shows that this preserves the
unique-simple-path property of the open region. -/

/-- The open predicate extended by the two freshly carved cells. -/
def extOpen (O : Coord → Prop) (W J' : Coord) : Coord → Prop :=
  fun p => O p ∨ p = W ∨ p = J'

/-- The geometry of one carving step: `W` and `J'` were walls, `J` is open,
`J — W — J'` is a corridor, and within the extended region `W` is adjacent
only to `J` and `J'`, while `J'` is adjacent only to `W`. -/
structure PendantExt (O : Coord → Prop) (J W J' : Coord) : Prop where
  hJ : O J
  notW : ¬ O W
  notJ' : ¬ O J'
  wne : W ≠ J'
  adjJW : adjStep J W
  adjWJ' : adjStep W J'
  nbrW : ∀ x, extOpen O W J' x → adjStep W x → x = J ∨ x = J'
  nbrJ' : ∀ x, extOpen O W J' x → adjStep J' x → x = W

namespace PendantExt

variable {O : Coord → Prop} {J W J' : Coord}

/-- `J'` cannot occur inside an extended path whose two endpoints differ
from `J'`: an interior occurrence would need two distinct neighbours of
`J'`, but `W` is its only one. -/
theorem not_mem_J' (he : PendantExt O J W J') {a b : Coord} {l : List Coord}
    (h : PathTo (extOpen O W J') a b l) (ha : a ≠ J') (hb : b ≠ J') : J' ∉ l := by
  intro hmem
  obtain ⟨l1, l2, hsplit, h1, h2⟩ := h.mem_split hmem
  -- the cell before J' on the path is W
  have hWl1 : W ∈ l1 := by
    rcases h1.snoc_inv with ⟨rfl, -⟩ | ⟨l', b', heq, hp', hadj', -⟩
    · exact absurd rfl ha
    · have hl' : l' = l1 := (List.append_cancel_right heq).symm
      have hb' : extOpen O W J' b' := hp'.mem_open b' hp'.end_mem
      have hbW : b' = W := he.nbrJ' b' hb' (adjStep_symm hadj')
      exact hl' ▸ hbW ▸ hp'.end_mem
  -- the cell after J' on the path is W as well
  have hWl2 : W ∈ J' :: l2 := by
    obtain ⟨-, -, hnil, hcons⟩ := h2.cons_inv
    cases l2 with
    | nil => exact absurd (hnil rfl) hb
    | cons y t' =>
      obtain ⟨hadj, -, hp⟩ := hcons y t' rfl
      have hy : extOpen O W J' y := hp.mem_open y hp.start_mem
      have hyW : y = W := he.nbrJ' y hy hadj
      exact List.mem_cons_of_mem J' (hyW ▸ hp.start_mem)
  have hnd : (l1 ++ J' :: l2).Nodup := hsplit ▸ h.nodup
  exact (List.disjoint_of_nodup_append hnd) hWl1 hWl2

/-- `W` cannot occur inside an extended path whose endpoints avoid both new
cells: an interior occurrence would need two distinct neighbours of `W`
other than `J'`, but `J` is the only candidate. -/
theorem not_mem_W (he : PendantExt O J W J') {a b : Coord} {l : List Coord}
    (h : PathTo (extOpen O W J') a b l) (haW : a ≠ W) (haJ : a ≠ J')
    (hbW : b ≠ W) (hbJ : b ≠ J') : W ∉ l := by
  intro hmem
  have hJ'l : J' ∉ l := he.not_mem_J' h haJ hbJ
  obtain ⟨l1, l2, hsplit, h1, h2⟩ := h.mem_split hmem
  have hJl1 : J ∈ l1 := by
    rcases h1.snoc_inv with ⟨rfl, -⟩ | ⟨l', b', heq, hp', hadj', -⟩
    · exact absurd rfl haW
    · have hl' : l' = l1 := (List.append_cancel_right heq).symm
      have hb' : extOpen O W J' b' := hp'.mem_open b' hp'.end_mem
      rcases he.nbrW b' hb' (adjStep_symm hadj') with hbJ' | hbJ'
      · exact hl' ▸ hbJ' ▸ hp'.end_mem
      · exfalso
        apply hJ'l
        rw [hsplit]
        exact List.mem_append.mpr (Or.inl (hl' ▸ hbJ' ▸ hp'.end_mem))
  have hJl2 : J ∈ W :: l2 := by
    obtain ⟨-, -, hnil, hcons⟩ := h2.cons_inv
    cases l2 with
    | nil => exact absurd (hnil rfl) hbW
    | cons y t' =>
      obtain ⟨hadj, -, hp⟩ := hcons y t' rfl
      have hy : extOpen O W J' y := hp.mem_open y hp.start_mem
      rcases he.nbrW y hy hadj with hyJ | hyJ
      · exact List.mem_cons_of_mem W (hyJ ▸ hp.start_mem)
      · exfalso
        apply hJ'l
        rw [hsplit]
        exact List.mem_append.mpr (Or.inr (List.mem_cons_of_mem W (hyJ ▸ hp.start_mem)))
  have hnd : (l1 ++ W :: l2).Nodup := hsplit ▸ h.nodup
  exact (List.disjoint_of_nodup_append hnd) hJl1 hJl2

/-- An extended path between two old open cells is an old path. -/
theorem restrict_old (he : PendantExt O J W J') {a b : Coord} {l : List Coord}
    (h : PathTo (extOpen O W J') a b l) (ha : O a) (hb : O b) : PathTo O a b l := by
  have haW : a ≠ W := fun hx => he.notW (hx ▸ ha)
  have haJ : a ≠ J' := fun hx => he.notJ' (hx ▸ ha)
  have hbW : b ≠ W := fun hx => he.notW (hx ▸ hb)
  have hbJ : b ≠ J' := fun hx => he.notJ' (hx ▸ hb)
  have hWm := he.not_mem_W h haW haJ hbW hbJ
  have hJm := he.not_mem_J' h haJ hbJ
  refine h.restrict (fun x hx => ?_)
  rcases h.mem_open x hx with hO | rfl | rfl
  · exact hO
  · exact absurd hx hWm
  · exact absurd hx hJm

/-- The unique extended path from an old cell `a` to `J'` is the unique old
path from `a` to `J` followed by the corridor `W, J'`. -/
theorem unique_to_J' (he : PendantExt O J W J') {a : Coord} {l0 l : List Coord} (ha : O a)
    (h0 : PathTo O a J l0) (huniq : ∀ l', PathTo O a J l' → l' = l0)
    (h : PathTo (extOpen O W J') a J' l) : l = (l0 ++ [W]) ++ [J'] := by
  rcases h.snoc_inv with ⟨rfl, -⟩ | ⟨l', b', heq, hp', hadj', hJn⟩
  · exact absurd ha he.notJ'
  · have hb' : extOpen O W J' b' := hp'.mem_open b' hp'.end_mem
    have hbW : b' = W := he.nbrJ' b' hb' (adjStep_symm hadj')
    replace hp' : PathTo (extOpen O W J') a W l' := hbW ▸ hp'
    rcases hp'.snoc_inv with ⟨rfl, -⟩ | ⟨l'', b'', heq', hp'', hadj'', hWn⟩
    · exact absurd ha he.notW
    · have hb'' : extOpen O W J' b'' := hp''.mem_open b'' hp''.end_mem
      rcases he.nbrW b'' hb'' (adjStep_symm hadj'') with hbJ | hbJ
      · have hold : PathTo O a J l'' :=
          he.restrict_old (hbJ ▸ hp'') ha he.hJ
        have : l'' = l0 := huniq l'' hold
        rw [heq, heq', this]
      · exfalso
        apply hJn
        rw [heq']
        exact List.mem_append.mpr (Or.inl (hbJ ▸ hp''.end_mem))

/-- The unique extended path from an old cell `a` to `W` is the unique old
path from `a` to `J` followed by `W`. -/
theorem unique_to_W (he : PendantExt O J W J') {a : Coord} {l0 l : List Coord} (ha : O a)
    (h0 : PathTo O a J l0) (huniq : ∀ l', PathTo O a J l' → l' = l0)
    (h : PathTo (extOpen O W J') a W l) : l = l0 ++ [W] := by
  rcases h.snoc_inv with ⟨rfl, -⟩ | ⟨l', b', heq, hp', hadj', hWn⟩
  · exact absurd ha he.notW
  · have hb' : extOpen O W J' b' := hp'.mem_open b' hp'.end_mem
    rcases he.nbrW b' hb' (adjStep_symm hadj') with hbJ | hbJ
    · have hold : PathTo O a J l' := he.restrict_old (hbJ ▸ hp') ha he.hJ
      rw [heq, huniq l' hold]
    · have hl' : l' = (l0 ++ [W]) ++ [J'] := he.unique_to_J' ha h0 huniq (hbJ ▸ hp')
      exfalso
      apply hWn
      rw [hl']
      exact List.mem_append.mpr (Or.inl (List.mem_append.mpr (Or.inr (List.mem_singleton.mpr rfl))))

end PendantExt

/-- Transporting unique-path existence along path reversal. -/
theorem existsUnique_path_symm {O : Coord → Prop} {a b : Coord}
    (h : ∃! l, PathTo O a b l) : ∃! l, PathTo O b a l := by
  obtain ⟨l0, h0, hu⟩ := h
  refine ⟨l0.reverse, h0.reverse, fun l hl => ?_⟩
  have := hu l.reverse hl.reverse
  rw [← List.reverse_reverse l, this]

/-- Carving one pendant corridor `J — W — J'` preserves the property that
any two open cells are joined by exactly one simple path. -/
theorem uniquePaths_extend {O : Coord → Prop} {J W J' : Coord}
    (he : PendantExt O J W J')
    (hU : ∀ a b, O a → O b → ∃! l, PathTo O a b l) :
    ∀ a b, extOpen O W J' a → extOpen O W J' b →
      ∃! l, PathTo (extOpen O W J') a b l := by
  have hOW : extOpen O W J' W := Or.inr (Or.inl rfl)
  have hOJ' : extOpen O W J' J' := Or.inr (Or.inr rfl)
  -- the three asymmetric cases, each for an arbitrary old endpoint
  have caseOO : ∀ a b, O a → O b → ∃! l, PathTo (extOpen O W J') a b l := by
    intro a b ha hb
    obtain ⟨l0, h0, hu⟩ := hU a b ha hb
    exact ⟨l0, h0.mono (fun x hx => Or.inl hx),
      fun l hl => hu l (he.restrict_old hl ha hb)⟩
  have caseOW : ∀ a, O a → ∃! l, PathTo (extOpen O W J') a W l := by
    intro a ha
    obtain ⟨l0, h0, hu⟩ := hU a J ha he.hJ
    have hWl0 : W ∉ l0 := fun hm => he.notW (h0.mem_open W hm)
    refine ⟨l0 ++ [W], ?_, fun l hl => he.unique_to_W ha h0 (fun l' h' => hu l' h') hl⟩
    exact (h0.mono (fun x hx => Or.inl hx)).snoc hOW he.adjJW hWl0
  have caseOJ' : ∀ a, O a → ∃! l, PathTo (extOpen O W J') a J' l := by
    intro a ha
    obtain ⟨l0, h0, hu⟩ := hU a J ha he.hJ
    have hWl0 : W ∉ l0 := fun hm => he.notW (h0.mem_open W hm)
    have hJ'l0 : J' ∉ l0 ++ [W] := by
      intro hm
      rcases List.mem_append.mp hm with hm | hm
      · exact he.notJ' (h0.mem_open J' hm)
      · rw [List.mem_singleton] at hm
        exact he.wne hm.symm
    refine ⟨(l0 ++ [W]) ++ [J'], ?_,
      fun l hl => he.unique_to_J' ha h0 (fun l' h' => hu l' h') hl⟩
    have hinner : PathTo (extOpen O W J') a W (l0 ++ [W]) :=
      (h0.mono (fun x hx => Or.inl hx)).snoc hOW he.adjJW hWl0
    exact hinner.snoc hOJ' he.adjWJ' hJ'l0
  have caseWJ' : ∃! l, PathTo (extOpen O W J') W J' l := by
    refine ⟨[W, J'], ?_, fun l hl => ?_⟩
    · refine PathTo.cons W J' J' [J'] hOW he.adjWJ' ?_ (PathTo.single J' hOJ')
      simp only [List.mem_singleton]
      exact he.wne
    · rcases hl.snoc_inv with ⟨heq, -⟩ | ⟨l', b', heq, hp', hadj', -⟩
      · exact absurd heq he.wne
      · have hb' : extOpen O W J' b' := hp'.mem_open b' hp'.end_mem
        have hbW : b' = W := he.nbrJ' b' hb' (adjStep_symm hadj')
        subst hbW
        rw [heq, hp'.self_eq]
        rfl
  intro a b ha hb
  rcases ha with haO | rfl | rfl <;> rcases hb with hbO | rfl | rfl
  · exact caseOO a b haO hbO
  · exact caseOW a haO
  · exact caseOJ' a haO
  · exact existsUnique_path_symm (caseOW b hbO)
  · exact ⟨_, PathTo.single _ hOW, fun l hl => hl.self_eq⟩
  · exact caseWJ'
  · exact existsUnique_path_symm (caseOJ' b hbO)
  · exact existsUnique_path_symm caseWJ'
  · exact ⟨_, PathTo.single _ hOJ', fun l hl => hl.self_eq⟩

/-! ## The carving invariant of `generate` -/

/-- The open-cell predicate used by the claims: in bounds and not a wall. -/
def openCell (m : Maze) (p : Coord) : Prop := m.isValid p.1 p.2 ∧ m.grid p ≠ '#'

instance (m : Maze) (p : Coord) : Decidable (openCell m p) :=
  inferInstanceAs (Decidable (m.isValid p.1 p.2 ∧ m.grid p ≠ '#'))

/-- Componentwise equality of coordinates. -/
theorem coord_ext {a b a' b' : Int} (h1 : a = a') (h2 : b = b') :
    ((a, b) : Coord) = (a', b') := by
  subst h1
  subst h2
  rfl

/-- Membership in the `unvisited_neighbors` list. -/
theorem mem_genNeighbors {m : Maze} {r c : Int} {p : Coord} :
    p ∈ m.genNeighbors r c ↔
      ((p = (r, c + 2) ∨ p = (r, c - 2) ∨ p = (r + 2, c) ∨ p = (r - 2, c)) ∧
        m.isValid p.1 p.2 ∧ m.grid p = '#') := by
  unfold Maze.genNeighbors
  rw [List.mem_filterMap]
  constructor
  · rintro ⟨d, hd, hf⟩
    simp only [genDirections, List.mem_cons, List.not_mem_nil, or_false] at hd
    rcases hd with rfl | rfl | rfl | rfl
    · dsimp only at hf
      split at hf
      · rename_i hcond
        cases hf
        exact ⟨Or.inl (coord_ext (by omega) (by omega)), hcond.1, hcond.2⟩
      · cases hf
    · dsimp only at hf
      split at hf
      · rename_i hcond
        cases hf
        exact ⟨Or.inr (Or.inl (coord_ext (by omega) (by omega))), hcond.1, hcond.2⟩
      · cases hf
    · dsimp only at hf
      split at hf
      · rename_i hcond
        cases hf
        exact ⟨Or.inr (Or.inr (Or.inl (coord_ext (by omega) (by omega)))),
          hcond.1, hcond.2⟩
      · cases hf
    · dsimp only at hf
      split at hf
      · rename_i hcond
        cases hf
        exact ⟨Or.inr (Or.inr (Or.inr (coord_ext (by omega) (by omega)))),
          hcond.1, hcond.2⟩
      · cases hf
  · rintro ⟨hp, hv, hw⟩
    rcases hp with rfl | rfl | rfl | rfl
    · refine ⟨(0, 2), by simp [genDirections], ?_⟩
      dsimp only
      rw [if_pos ⟨by simpa using hv, by simpa using hw⟩]
      exact congrArg some (coord_ext (by omega) (by omega))
    · refine ⟨(0, -2), by simp [genDirections], ?_⟩
      dsimp only
      rw [if_pos ⟨by simpa using hv, by simpa using hw⟩]
      exact congrArg some (coord_ext (by omega) (by omega))
    · refine ⟨(2, 0), by simp [genDirections], ?_⟩
      dsimp only
      rw [if_pos ⟨by simpa using hv, by simpa using hw⟩]
      exact congrArg some (coord_ext (by omega) (by omega))
    · refine ⟨(-2, 0), by simp [genDirections], ?_⟩
      dsimp only
      rw [if_pos ⟨by simpa using hv, by simpa using hw⟩]
      exact congrArg some (coord_ext (by omega) (by omega))

/-- The cell chosen by `random.choice` is one of the unvisited neighbours. -/
theorem genPick_mem {m : Maze} {r c : Int} (cs : Nat → Nat) (k : Nat)
    (hne : ¬ (m.genNeighbors r c).isEmpty) : genPick m r c cs k ∈ m.genNeighbors r c := by
  unfold genPick
  have hlen : 0 < (m.genNeighbors r c).length := by
    cases h : m.genNeighbors r c with
    | nil => rw [h] at hne; exact absurd rfl hne
    | cons a l => simp [h]
  have hidx : cs k % (m.genNeighbors r c).length < (m.genNeighbors r c).length :=
    Nat.mod_lt _ hlen
  rw [List.getD_eq_getElem _ _ hidx]
  exact List.getElem_mem hidx

/-- The loop invariant of the DFS carving loop, for the maze `m` holding the
current grid and `stack` the explicit DFS stack.

* `oob`: out-of-bounds cells carry the wall glyph (they do not exist in
  Python and are never observed);
* `vals`: the loop only ever writes `' '`, so every cell is `'#'` or `' '`;
* `parity`: no open cell has both coordinates even;
* `connR`/`connD`: an open cell with an even column (resp. row) is a carved
  connector wall whose two horizontal (resp. vertical) neighbours are open;
* `stackJ`: stack cells are open junctions (both coordinates odd);
* `startO`: the start cell is open;
* `expand`: a fully-processed open junction (not on the stack) has no
  in-bounds 2-step neighbour left unvisited;
* `unique`: between any two open cells there is exactly one simple path. -/
structure GenInv (m : Maze) (stack : List Coord) : Prop where
  oob : ∀ p : Coord, ¬ m.isValid p.1 p.2 → m.grid p = '#'
  vals : ∀ p : Coord, m.grid p = '#' ∨ m.grid p = ' '
  parity : ∀ p : Coord, m.grid p ≠ '#' → p.1 % 2 = 1 ∨ p.2 % 2 = 1
  connR : ∀ p : Coord, m.grid p ≠ '#' → p.2 % 2 = 0 →
      m.grid (p.1, p.2 - 1) ≠ '#' ∧ m.grid (p.1, p.2 + 1) ≠ '#'
  connD : ∀ p : Coord, m.grid p ≠ '#' → p.1 % 2 = 0 →
      m.grid (p.1 - 1, p.2) ≠ '#' ∧ m.grid (p.1 + 1, p.2) ≠ '#'
  stackJ : ∀ p ∈ stack, m.grid p ≠ '#' ∧ p.1 % 2 = 1 ∧ p.2 % 2 = 1
  startO : m.grid m.start ≠ '#'
  expand : ∀ p : Coord, m.grid p ≠ '#' → p.1 % 2 = 1 → p.2 % 2 = 1 → p ∉ stack →
      ∀ q : Coord, q ∈ m.genNeighbors p.1 p.2 → False
  unique : ∀ a b : Coord, m.grid a ≠ '#' → m.grid b ≠ '#' →
      ∃! l, PathTo (fun p => m.grid p ≠ '#') a b l

/-- Open cells are exactly the non-wall glyphs, thanks to `oob`. -/
theorem GenInv.open_iff {m : Maze} {stack : List Coord} (hI : GenInv m stack)
    (p : Coord) : openCell m p ↔ m.grid p ≠ '#' := by
  constructor
  · exact fun h => h.2
  · intro h
    refine ⟨?_, h⟩
    by_contra hv
    exact h (hI.oob p hv)

/-- Popping an exhausted junction preserves the invariant. -/
theorem GenInv.pop {m : Maze} {r c : Int} {rest : List Coord}
    (hI : GenInv m ((r, c) :: rest)) (hne : (m.genNeighbors r c).isEmpty) :
    GenInv m rest := by
  refine ⟨hI.oob, hI.vals, hI.parity, hI.connR, hI.connD,
    fun p hp => hI.stackJ p (List.mem_cons_of_mem _ hp), hI.startO, ?_, hI.unique⟩
  intro p hop h1 h2 hns q hq
  by_cases hprc : p = (r, c)
  · subst hprc
    rw [List.isEmpty_iff] at hne
    rw [hne] at hq
    exact List.not_mem_nil q hq
  · exact hI.expand p hop h1 h2
      (fun hm => (List.mem_cons.mp hm).elim (fun h => hprc h) hns) q hq

/-- The four possible positions of a 4-adjacent neighbour. -/
theorem adjStep_cases {p q : Coord} (h : adjStep p q) :
    (q.1 = p.1 ∧ (q.2 = p.2 - 1 ∨ q.2 = p.2 + 1)) ∨
      (q.2 = p.2 ∧ (q.1 = p.1 - 1 ∨ q.1 = p.1 + 1)) := by
  unfold adjStep at h
  by_cases h1 : q.1 = p.1
  · left
    refine ⟨h1, ?_⟩
    by_cases h2 : q.2 = p.2 - 1
    · exact Or.inl h2
    · right
      omega
  · right
    refine ⟨by omega, ?_⟩
    by_cases h2 : q.1 = p.1 - 1
    · exact Or.inl h2
    · right
      omega

/-- One carving step `J — W — J'` preserves the invariant.  The geometric
hypotheses describe the corridor: `next` is the newly opened junction (odd
coordinates, previously a wall), `w` the carved connector wall between the
stack top `(r, c)` and `next`, with exactly one even coordinate and with its
two neighbours along the even axis being `(r, c)` and `next`. -/
theorem GenInv.carve_aux {m m2 : Maze} {r c : Int} {rest : List Coord} {next w : Coord}
    (hI : GenInv m ((r, c) :: rest))
    (hdw : m2.width = m.width) (hdh : m2.height = m.height) (hds : m2.start = m.start)
    (hg2 : ∀ p : Coord, m2.grid p = if p = w then ' ' else if p = next then ' ' else m.grid p)
    (hnv : m.isValid next.1 next.2) (hnw : m.grid next = '#')
    (hnodd1 : next.1 % 2 = 1) (hnodd2 : next.2 % 2 = 1)
    (hwv : m.isValid w.1 w.2)
    (hadjJW : adjStep (r, c) w) (hadjWN : adjStep w next)
    (hwne : w ≠ next)
    (hweven : (w.1 % 2 = 1 ∧ w.2 % 2 = 0) ∨ (w.1 % 2 = 0 ∧ w.2 % 2 = 1))
    (hflankH : w.2 % 2 = 0 →
      (((w.1, w.2 - 1) : Coord) = (r, c) ∧ ((w.1, w.2 + 1) : Coord) = next) ∨
        (((w.1, w.2 - 1) : Coord) = next ∧ ((w.1, w.2 + 1) : Coord) = (r, c)))
    (hflankV : w.1 % 2 = 0 →
      (((w.1 - 1, w.2) : Coord) = (r, c) ∧ ((w.1 + 1, w.2) : Coord) = next) ∨
        (((w.1 - 1, w.2) : Coord) = next ∧ ((w.1 + 1, w.2) : Coord) = (r, c))) :
    GenInv m2 (next :: (r, c) :: rest) := by
  have hrc := hI.stackJ (r, c) (List.mem_cons_self _ _)
  have hrcO : m.grid (r, c) ≠ '#' := hrc.1
  have hro : r % 2 = 1 := hrc.2.1
  have hco : c % 2 = 1 := hrc.2.2
  have hwallm : m.grid w = '#' := by
    by_contra hwo
    rcases hweven with ⟨ho, he⟩ | ⟨he, ho⟩
    · have hcf := hI.connR w hwo he
      rcases hflankH he with ⟨e1, e2⟩ | ⟨e1, e2⟩
      · rw [e2] at hcf
        exact hcf.2 hnw
      · rw [e1] at hcf
        exact hcf.1 hnw
    · have hcf := hI.connD w hwo he
      rcases hflankV he with ⟨e1, e2⟩ | ⟨e1, e2⟩
      · rw [e2] at hcf
        exact hcf.2 hnw
      · rw [e1] at hcf
        exact hcf.1 hnw
  have hmono : ∀ p : Coord, m.grid p ≠ '#' → m2.grid p ≠ '#' := by
    intro p hp
    rw [hg2 p]
    split_ifs <;> simp_all
  have hW2 : m2.grid w ≠ '#' := by
    rw [hg2 w, if_pos rfl]
    decide
  have hN2 : m2.grid next ≠ '#' := by
    rw [hg2 next, if_neg (fun h => hwne h.symm), if_pos rfl]
    decide
  have hO2iff : ∀ p : Coord, m2.grid p ≠ '#' ↔ (m.grid p ≠ '#' ∨ p = w ∨ p = next) := by
    intro p
    rw [hg2 p]
    constructor
    · intro hp
      by_cases e1 : p = w
      · exact Or.inr (Or.inl e1)
      by_cases e2 : p = next
      · exact Or.inr (Or.inr e2)
      rw [if_neg e1, if_neg e2] at hp
      exact Or.inl hp
    · intro hp
      split_ifs with e1 e2
      · decide
      · decide
      · rcases hp with h | h | h
        · exact h
        · exact absurd h e1
        · exact absurd h e2
  refine ⟨?_, ?_, ?_, ?_, ?_, ?_, ?_, ?_, ?_⟩
  · -- oob
    intro p hp
    have hpv : ¬ m.isValid p.1 p.2 :=
      fun h => hp ((Maze.isValid_congr hdw hdh p.1 p.2).mpr h)
    rw [hg2 p, if_neg (fun h : p = w => hpv (by rw [h]; exact hwv)),
      if_neg (fun h : p = next => hpv (by rw [h]; exact hnv))]
    exact hI.oob p hpv
  · -- vals
    intro p
    rw [hg2 p]
    split_ifs
    · exact Or.inr rfl
    · exact Or.inr rfl
    · exact hI.vals p
  · -- parity
    intro p hp
    rcases (hO2iff p).mp hp with hO | rfl | rfl
    · exact hI.parity p hO
    · rcases hweven with ⟨ho, _⟩ | ⟨_, ho⟩
      · exact Or.inl ho
      · exact Or.inr ho
    · exact Or.inl hnodd1
  · -- connR
    intro p hp heven
    rcases (hO2iff p).mp hp with hO | rfl | rfl
    · have hcf := hI.connR p hO heven
      exact ⟨hmono _ hcf.1, hmono _ hcf.2⟩
    · rcases hflankH heven with ⟨e1, e2⟩ | ⟨e1, e2⟩
      · exact ⟨by rw [e1]; exact hmono _ hrcO, by rw [e2]; exact hN2⟩
      · exact ⟨by rw [e1]; exact hN2, by rw [e2]; exact hmono _ hrcO⟩
    · omega
  · -- connD
    intro p hp heven
    rcases (hO2iff p).mp hp with hO | rfl | rfl
    · have hcf := hI.connD p hO heven
      exact ⟨hmono _ hcf.1, hmono _ hcf.2⟩
    · rcases hflankV heven with ⟨e1, e2⟩ | ⟨e1, e2⟩
      · exact ⟨by rw [e1]; exact hmono _ hrcO, by rw [e2]; exact hN2⟩
      · exact ⟨by rw [e1]; exact hN2, by rw [e2]; exact hmono _ hrcO⟩
    · omega
  · -- stackJ
    intro p hp
    rcases List.mem_cons.mp hp with rfl | hp
    · exact ⟨hN2, hnodd1, hnodd2⟩
    · obtain ⟨hO, h1, h2⟩ := hI.stackJ p hp
      exact ⟨hmono p hO, h1, h2⟩
  · -- startO
    rw [hds]
    exact hmono _ hI.startO
  · -- expand
    intro p hp h1 h2 hns q hq
    rcases (hO2iff p).mp hp with hO | rfl | rfl
    · obtain ⟨hdir, hqv, hqw⟩ := mem_genNeighbors.mp hq
      have hqw' : m.grid q = '#' := by
        rw [hg2 q] at hqw
        split_ifs at hqw with e1 e2
        · cases hqw
        · cases hqw
        · exact hqw
      have hqnotw : q ≠ w := by
        intro h
        rw [hg2 q, if_pos h] at hqw
        cases hqw
      have hqv' : m.isValid q.1 q.2 := (Maze.isValid_congr hdw hdh q.1 q.2).mp hqv
      have hpn : p ∉ (r, c) :: rest :=
        fun hm => hns (List.mem_cons_of_mem next hm)
      exact hI.expand p hO h1 h2 hpn q (mem_genNeighbors.mpr ⟨hdir, hqv', hqw'⟩)
    · rcases hweven with ⟨_, he⟩ | ⟨he, _⟩ <;> omega
    · exact hns (List.mem_cons_self _ _)
  · -- unique
    have hPE : PendantExt (fun p => m.grid p ≠ '#') (r, c) w next := by
      refine ⟨hrcO, fun h => h hwallm, fun h => h hnw, hwne, hadjJW, hadjWN, ?_, ?_⟩
      · -- neighbours of w within the extended region
        intro x hx hadjx
        rcases adjStep_cases hadjx with ⟨hx1, hx2⟩ | ⟨hx2, hx1⟩
        · -- column move from w
          rcases hweven with ⟨ho, he⟩ | ⟨he, ho⟩
          · rcases hflankH he with ⟨e1, e2⟩ | ⟨e1, e2⟩
            · rcases hx2 with h | h
              · exact Or.inl (by rw [← e1]; exact Prod.ext_iff.mpr ⟨hx1, h⟩)
              · exact Or.inr (by rw [← e2]; exact Prod.ext_iff.mpr ⟨hx1, h⟩)
            · rcases hx2 with h | h
              · exact Or.inr (by rw [← e1]; exact Prod.ext_iff.mpr ⟨hx1, h⟩)
              · exact Or.inl (by rw [← e2]; exact Prod.ext_iff.mpr ⟨hx1, h⟩)
          · -- w.2 odd: such a neighbour has both coordinates even
            rcases hx with hO | rfl | rfl
            · rcases hI.parity x hO with hp | hp <;> omega
            · exact absurd hadjx (adjStep_irrefl _)
            · omega
        · -- row move from w
          rcases hweven with ⟨ho, he⟩ | ⟨he, ho⟩
          · rcases hx with hO | rfl | rfl
            · rcases hI.parity x hO with hp | hp <;> omega
            · exact absurd hadjx (adjStep_irrefl _)
            · omega
          · rcases hflankV he with ⟨e1, e2⟩ | ⟨e1, e2⟩
            · rcases hx1 with h | h
              · exact Or.inl (by rw [← e1]; exact Prod.ext_iff.mpr ⟨h, hx2⟩)
              · exact Or.inr (by rw [← e2]; exact Prod.ext_iff.mpr ⟨h, hx2⟩)
            · rcases hx1 with h | h
              · exact Or.inr (by rw [← e1]; exact Prod.ext_iff.mpr ⟨h, hx2⟩)
              · exact Or.inl (by rw [← e2]; exact Prod.ext_iff.mpr ⟨h, hx2⟩)
      · -- neighbours of next within the extended region
        intro x hx hadjx
        rcases hx with hO | rfl | rfl
        · exfalso
          rcases adjStep_cases hadjx with ⟨hx1, hx2⟩ | ⟨hx2, hx1⟩
          · have hxe : x.2 % 2 = 0 := by omega
            have hcf := hI.connR x hO hxe
            rcases hx2 with h | h
            · have he : ((x.1, x.2 + 1) : Coord) = next := Prod.ext_iff.mpr ⟨hx1, by omega⟩
              rw [he] at hcf
              exact hcf.2 hnw
            · have he : ((x.1, x.2 - 1) : Coord) = next := Prod.ext_iff.mpr ⟨hx1, by omega⟩
              rw [he] at hcf
              exact hcf.1 hnw
          · have hxe : x.1 % 2 = 0 := by omega
            have hcf := hI.connD x hO hxe
            rcases hx1 with h | h
            · have he : ((x.1 + 1, x.2) : Coord) = next := Prod.ext_iff.mpr ⟨by omega, hx2⟩
              rw [he] at hcf
              exact hcf.2 hnw
            · have he : ((x.1 - 1, x.2) : Coord) = next := Prod.ext_iff.mpr ⟨by omega, hx2⟩
              rw [he] at hcf
              exact hcf.1 hnw
        · rfl
        · exact absurd hadjx (adjStep_irrefl _)
    have hext := uniquePaths_extend hPE (fun a b ha hb => hI.unique a b ha hb)
    intro a b ha hb
    obtain ⟨l0, h0, hu⟩ := hext a b ((hO2iff a).mp ha) ((hO2iff b).mp hb)
    refine ⟨l0, ?_, ?_⟩
    · exact h0.restrict (fun x hx => (hO2iff x).mpr (h0.mem_open x hx))
    · intro l hl
      exact hu l (hl.restrict (fun x hx => (hO2iff x).mp (hl.mem_open x hx)))

theorem Maze.isValid_iff {m : Maze} {r c : Int} :
    m.isValid r c ↔ 0 ≤ r ∧ r < m.height ∧ 0 ≤ c ∧ c < m.width := Iff.rfl

/-- The carving step of `genLoop` — opening a chosen unvisited neighbour and
the wall between — preserves the invariant. -/
theorem GenInv.carve {m m1 m2 : Maze} {r c : Int} {rest : List Coord} {next : Coord}
    (hI : GenInv m ((r, c) :: rest))
    (hmem : next ∈ m.genNeighbors r c)
    (h1 : m.setCell next.1 next.2 ' ' = some m1)
    (h2 : m1.setCell (r + (next.1 - r) / 2) (c + (next.2 - c) / 2) ' ' = some m2) :
    GenInv m2 (next :: (r, c) :: rest) := by
  obtain ⟨hdir, hnv, hnw⟩ := mem_genNeighbors.mp hmem
  obtain ⟨hv1, hw1, hh1, hs1, he1, hg1⟩ := Maze.setCell_eq_some h1
  obtain ⟨hv2, hw2, hh2, hs2, he2, hg2⟩ := Maze.setCell_eq_some h2
  have hdw : m2.width = m.width := hw2.trans hw1
  have hdh : m2.height = m.height := hh2.trans hh1
  have hds : m2.start = m.start := hs2.trans hs1
  have hrc := hI.stackJ (r, c) (List.mem_cons_self _ _)
  have hro : r % 2 = 1 := hrc.2.1
  have hco : c % 2 = 1 := hrc.2.2
  have hrcv : m.isValid r c := by
    by_contra hval
    exact hrc.1 (hI.oob (r, c) hval)
  obtain ⟨hr0, hrh, hc0, hcw⟩ := Maze.isValid_iff.mp hrcv
  obtain ⟨hn0, hnh, hm0, hmw⟩ := Maze.isValid_iff.mp hnv
  have hgrid : ∀ p : Coord,
      m2.grid p = if p = ((r + (next.1 - r) / 2, c + (next.2 - c) / 2) : Coord) then ' '
        else if p = next then ' ' else m.grid p := by
    intro p
    rw [hg2 p, hg1 p]
  rcases hdir with h | h | h | h
  · -- next = (r, c + 2), connector w = (r, c + 1)
    have hn1 : next.1 = r := by rw [h]
    have hn2 : next.2 = c + 2 := by rw [h]
    have hweq : ((r + (next.1 - r) / 2, c + (next.2 - c) / 2) : Coord) = (r, c + 1) :=
      coord_ext (by omega) (by omega)
    rw [hweq] at hgrid
    refine hI.carve_aux hdw hdh hds hgrid hnv hnw (by omega) (by omega) ?_ ?_ ?_ ?_ ?_ ?_ ?_
    · exact Maze.isValid_iff.mpr ⟨hr0, hrh, by omega, by omega⟩
    · unfold adjStep
      dsimp only
      omega
    · unfold adjStep
      dsimp only
      omega
    · intro heq
      have h2' : c + 1 = next.2 := congrArg Prod.snd heq
      omega
    · exact Or.inl ⟨show r % 2 = 1 from hro, show (c + 1) % 2 = 0 from by omega⟩
    · intro _
      exact Or.inl ⟨show ((r, (c + 1) - 1) : Coord) = (r, c) from coord_ext rfl (by omega),
        show ((r, (c + 1) + 1) : Coord) = next from by rw [h]; exact coord_ext rfl (by omega)⟩
    · intro hh
      exact absurd (show r % 2 = 0 from hh) (by omega)
  · -- next = (r, c - 2), connector w = (r, c - 1)
    have hn1 : next.1 = r := by rw [h]
    have hn2 : next.2 = c - 2 := by rw [h]
    have hweq : ((r + (next.1 - r) / 2, c + (next.2 - c) / 2) : Coord) = (r, c - 1) :=
      coord_ext (by omega) (by omega)
    rw [hweq] at hgrid
    refine hI.carve_aux hdw hdh hds hgrid hnv hnw (by omega) (by omega) ?_ ?_ ?_ ?_ ?_ ?_ ?_
    · exact Maze.isValid_iff.mpr ⟨hr0, hrh, by omega, by omega⟩
    · unfold adjStep
      dsimp only
      omega
    · unfold adjStep
      dsimp only
      omega
    · intro heq
      have h2' : c - 1 = next.2 := congrArg Prod.snd heq
      omega
    · exact Or.inl ⟨show r % 2 = 1 from hro, show (c - 1) % 2 = 0 from by omega⟩
    · intro _
      exact Or.inr ⟨show ((r, (c - 1) - 1) : Coord) = next from by rw [h]; exact coord_ext rfl (by omega),
        show ((r, (c - 1) + 1) : Coord) = (r, c) from coord_ext rfl (by omega)⟩
    · intro hh
      exact absurd (show r % 2 = 0 from hh) (by omega)
  · -- next = (r + 2, c), connector w = (r + 1, c)
    have hn1 : next.1 = r + 2 := by rw [h]
    have hn2 : next.2 = c := by rw [h]
    have hweq : ((r + (next.1 - r) / 2, c + (next.2 - c) / 2) : Coord) = (r + 1, c) :=
      coord_ext (by omega) (by omega)
    rw [hweq] at hgrid
    refine hI.carve_aux hdw hdh hds hgrid hnv hnw (by omega) (by omega) ?_ ?_ ?_ ?_ ?_ ?_ ?_
    · exact Maze.isValid_iff.mpr ⟨by omega, by omega, hc0, hcw⟩
    · unfold adjStep
      dsimp only
      omega
    · unfold adjStep
      dsimp only
      omega
    · intro heq
      have h1' : r + 1 = next.1 := congrArg Prod.fst heq
      omega
    · exact Or.inr ⟨show (r + 1) % 2 = 0 from by omega, show c % 2 = 1 from hco⟩
    · intro hh
      exact absurd (show c % 2 = 0 from hh) (by omega)
    · intro _
      exact Or.inl ⟨show (((r + 1) - 1, c) : Coord) = (r, c) from coord_ext (by omega) rfl,
        show (((r + 1) + 1, c) : Coord) = next from by rw [h]; exact coord_ext (by omega) rfl⟩
  · -- next = (r - 2, c), connector w = (r - 1, c)
    have hn1 : next.1 = r - 2 := by rw [h]
    have hn2 : next.2 = c := by rw [h]
    have hweq : ((r + (next.1 - r) / 2, c + (next.2 - c) / 2) : Coord) = (r - 1, c) :=
      coord_ext (by omega) (by omega)
    rw [hweq] at hgrid
    refine hI.carve_aux hdw hdh hds hgrid hnv hnw (by omega) (by omega) ?_ ?_ ?_ ?_ ?_ ?_ ?_
    · exact Maze.isValid_iff.mpr ⟨by omega, by omega, hc0, hcw⟩
    · unfold adjStep
      dsimp only
      omega
    · unfold adjStep
      dsimp only
      omega
    · intro heq
      have h1' : r - 1 = next.1 := congrArg Prod.fst heq
      omega
    · exact Or.inr ⟨show (r - 1) % 2 = 0 from by omega, show c % 2 = 1 from hco⟩
    · intro hh
      exact absurd (show c % 2 = 0 from hh) (by omega)
    · intro _
      exact Or.inr ⟨show (((r - 1) - 1, c) : Coord) = next from by rw [h]; exact coord_ext (by omega) rfl,
        show (((r - 1) + 1, c) : Coord) = (r, c) from coord_ext (by omega) rfl⟩

/-! ## Termination measure and master theorem for the carving loop -/

/-- The wall cells of the grid as a finite set: the loop measure. -/
def wallSet (m : Maze) : Finset (Nat × Nat) :=
  ((Finset.range m.height.toNat) ×ˢ (Finset.range m.width.toNat)).filter
    (fun q => m.grid ((q.1 : Int), (q.2 : Int)) = '#')

theorem mem_wallSet {m : Maze} {q : Nat × Nat} :
    q ∈ wallSet m ↔ q.1 < m.height.toNat ∧ q.2 < m.width.toNat ∧
      m.grid ((q.1 : Int), (q.2 : Int)) = '#' := by
  unfold wallSet
  simp [Finset.mem_filter, Finset.mem_product, and_assoc]

theorem wallSet_card_le (m : Maze) :
    (wallSet m).card ≤ m.height.toNat * m.width.toNat := by
  calc (wallSet m).card
      ≤ ((Finset.range m.height.toNat) ×ˢ (Finset.range m.width.toNat)).card :=
        Finset.card_filter_le _ _
    _ = m.height.toNat * m.width.toNat := by
        rw [Finset.card_product, Finset.card_range, Finset.card_range]

/-- Opening a wall cell strictly decreases the wall count. -/
theorem wallSet_card_lt {m m2 : Maze} (hdw : m2.width = m.width)
    (hdh : m2.height = m.height)
    (hsub : ∀ p : Coord, m2.grid p = '#' → m.grid p = '#')
    {p : Coord} (hv : m.isValid p.1 p.2) (hw : m.grid p = '#')
    (hw2 : m2.grid p ≠ '#') : (wallSet m2).card < (wallSet m).card := by
  obtain ⟨h0, hh, h0', hw'⟩ := Maze.isValid_iff.mp hv
  have hpp : (((p.1.toNat : Int), (p.2.toNat : Int)) : Coord) = p := by
    rw [Int.toNat_of_nonneg h0, Int.toNat_of_nonneg h0']
  have hwit : (p.1.toNat, p.2.toNat) ∈ wallSet m := by
    rw [mem_wallSet]
    refine ⟨by omega, by omega, ?_⟩
    rw [hpp]
    exact hw
  have hwit2 : (p.1.toNat, p.2.toNat) ∉ wallSet m2 := by
    rw [mem_wallSet]
    intro hc
    apply hw2
    have := hc.2.2
    rwa [hpp] at this
  refine Finset.card_lt_card ⟨?_, fun hts => hwit2 (hts hwit)⟩
  intro q hq
  rw [mem_wallSet] at hq ⊢
  rw [hdw, hdh] at hq
  exact ⟨hq.1, hq.2.1, hsub _ hq.2.2⟩

theorem GenInv.head_valid {m : Maze} {r c : Int} {rest : List Coord}
    (hI : GenInv m ((r, c) :: rest)) : m.isValid r c := by
  by_contra hval
  exact (hI.stackJ (r, c) (List.mem_cons_self _ _)).1 (hI.oob (r, c) hval)

/-- The wall between the stack top and the chosen neighbour is in bounds. -/
theorem mid_valid {m : Maze} {r c : Int} {next : Coord} (hrcv : m.isValid r c)
    (hdir : next = (r, c + 2) ∨ next = (r, c - 2) ∨ next = (r + 2, c) ∨ next = (r - 2, c))
    (hnv : m.isValid next.1 next.2) :
    m.isValid (r + (next.1 - r) / 2) (c + (next.2 - c) / 2) := by
  obtain ⟨hr0, hrh, hc0, hcw⟩ := Maze.isValid_iff.mp hrcv
  obtain ⟨hn0, hnh, hm0, hmw⟩ := Maze.isValid_iff.mp hnv
  rcases hdir with h | h | h | h <;>
    · have hn1 := congrArg Prod.fst h
      have hn2 := congrArg Prod.snd h
      dsimp only at hn1 hn2
      exact Maze.isValid_iff.mpr ⟨by omega, by omega, by omega, by omega⟩

/-- Master theorem for the carving loop: under the invariant, with enough
fuel, the loop terminates successfully and its result satisfies the
invariant with an empty stack. -/
theorem genLoop_spec :
    ∀ (fuel : Nat) (m : Maze) (stack : List Coord) (cs : Nat → Nat) (k : Nat),
      GenInv m stack → 2 * (wallSet m).card + stack.length < fuel →
      ∃ m', genLoop fuel m stack cs k = some m' ∧ GenInv m' [] := by
  intro fuel
  induction fuel with
  | zero =>
    intro m stack cs k hI hf
    omega
  | succ fuel ih =>
    intro m stack cs k hI hf
    match stack with
    | [] => exact ⟨m, rfl, hI⟩
    | (r, c) :: rest =>
      rw [genLoop]
      by_cases hne : (m.genNeighbors r c).isEmpty
      · rw [if_pos hne]
        refine ih m rest cs k (hI.pop hne) ?_
        rw [List.length_cons] at hf
        omega
      · rw [if_neg hne]
        have hmem := genPick_mem cs k hne
        obtain ⟨hdir, hnv, hnw⟩ := mem_genNeighbors.mp hmem
        cases hc1 : m.setCell (genPick m r c cs k).1 (genPick m r c cs k).2 ' ' with
        | none =>
          rw [Maze.setCell_eq_none] at hc1
          exact absurd hnv hc1
        | some m1 =>
          dsimp only
          have hmidv : m.isValid (r + ((genPick m r c cs k).1 - r) / 2)
              (c + ((genPick m r c cs k).2 - c) / 2) :=
            mid_valid hI.head_valid hdir hnv
          have hmidv1 : m1.isValid (r + ((genPick m r c cs k).1 - r) / 2)
              (c + ((genPick m r c cs k).2 - c) / 2) := by
            obtain ⟨hw1, hh1, -, -⟩ := Maze.setCell_fields hc1
            exact (Maze.isValid_congr hw1 hh1 _ _).mpr hmidv
          cases hc2 : m1.setCell (r + ((genPick m r c cs k).1 - r) / 2)
              (c + ((genPick m r c cs k).2 - c) / 2) ' ' with
          | none =>
            rw [Maze.setCell_eq_none] at hc2
            exact absurd hmidv1 hc2
          | some m2 =>
            dsimp only
            have hI2 : GenInv m2 (genPick m r c cs k :: (r, c) :: rest) :=
              hI.carve hmem hc1 hc2
            obtain ⟨-, hw1, hh1, -, -, hg1⟩ := Maze.setCell_eq_some hc1
            obtain ⟨-, hw2, hh2, -, -, hg2⟩ := Maze.setCell_eq_some hc2
            have hsub : ∀ p : Coord, m2.grid p = '#' → m.grid p = '#' := by
              intro p hp
              rw [hg2 p] at hp
              split_ifs at hp
              · cases hp
              · rw [hg1 p] at hp
                split_ifs at hp
                · cases hp
                · exact hp
            have hopen2 : m2.grid (genPick m r c cs k) ≠ '#' := by
              rw [hg2 _]
              split_ifs
              · decide
              · rw [hg1 _, if_pos rfl]
                decide
            have hlt : (wallSet m2).card < (wallSet m).card :=
              wallSet_card_lt (hw2.trans hw1) (hh2.trans hh1) hsub hnv hnw hopen2
            obtain ⟨m', hm', hI'⟩ :=
              ih m2 (genPick m r c cs k :: (r, c) :: rest) cs (k + 1) hI2
                (by simp only [List.length_cons] at hf ⊢
                    omega)
            exact ⟨m', hm', hI'⟩

/-- After the initial `self.grid[1][1] = ' '` write on a freshly constructed
odd-dimensioned maze, the carving invariant holds with stack `[(1, 1)]`. -/
theorem genStart_inv {w h : Int} (hw3 : 3 ≤ w) (hh3 : 3 ≤ h)
    (hwo : w % 2 = 1) (hho : h % 2 = 1) {m0 : Maze}
    (h0 : (Maze.init w h).setCell (Maze.init w h).start.1 (Maze.init w h).start.2 ' '
      = some m0) :
    GenInv m0 [(1, 1)] ∧ m0.width = w ∧ m0.height = h ∧ m0.start = (1, 1) ∧
      m0.endPos = (h - 2, w - 2) := by
  have hiw : (Maze.init w h).width = w := by
    show (if w % 2 = 0 then w + 1 else w) = w
    rw [if_neg (by omega)]
  have hih : (Maze.init w h).height = h := by
    show (if h % 2 = 0 then h + 1 else h) = h
    rw [if_neg (by omega)]
  have hie : (Maze.init w h).endPos = (h - 2, w - 2) := by
    show ((if h % 2 = 0 then h + 1 else h) - 2, (if w % 2 = 0 then w + 1 else w) - 2)
      = ((h - 2 : Int), (w - 2 : Int))
    rw [if_neg (by omega), if_neg (by omega)]
  obtain ⟨hv0, hw0, hh0, hs0, he0, hg0⟩ := Maze.setCell_eq_some h0
  have hg : ∀ p : Coord, m0.grid p = if p = ((1, 1) : Coord) then ' ' else '#' := hg0
  have hmw : m0.width = w := hw0.trans hiw
  have hmh : m0.height = h := hh0.trans hih
  have hopen : ∀ p : Coord, m0.grid p ≠ '#' ↔ p = ((1, 1) : Coord) := by
    intro p
    rw [hg p]
    constructor
    · intro hp
      by_contra hne
      rw [if_neg hne] at hp
      exact hp rfl
    · intro hp
      rw [if_pos hp]
      decide
  have h11v : m0.isValid 1 1 :=
    Maze.isValid_iff.mpr ⟨by omega, by omega, by omega, by omega⟩
  refine ⟨⟨?_, ?_, ?_, ?_, ?_, ?_, ?_, ?_, ?_⟩, hmw, hmh, hs0, he0.trans hie⟩
  · intro p hp
    rw [hg p, if_neg]
    intro hp1
    rw [hp1] at hp
    exact hp h11v
  · intro p
    rw [hg p]
    split_ifs
    · exact Or.inr rfl
    · exact Or.inl rfl
  · intro p hp
    rw [hopen p] at hp
    rw [hp]
    left
    decide
  · intro p hp he
    rw [hopen p] at hp
    rw [hp] at he
    exact absurd (show (1 : Int) % 2 = 0 from he) (by decide)
  · intro p hp he
    rw [hopen p] at hp
    rw [hp] at he
    exact absurd (show (1 : Int) % 2 = 0 from he) (by decide)
  · intro p hp
    rw [List.mem_singleton] at hp
    subst hp
    exact ⟨(hopen _).mpr rfl, by decide, by decide⟩
  · rw [hs0]
    exact (hopen _).mpr rfl
  · intro p hp h1 h2 hns q hq
    rw [hopen p] at hp
    exact hns (hp ▸ List.mem_singleton.mpr rfl)
  · intro a b ha hb
    rw [hopen a] at ha
    rw [hopen b] at hb
    subst ha
    subst hb
    exact ⟨_, PathTo.single _ ((hopen _).mpr rfl), fun l hl => hl.self_eq⟩

/-- When the stack has emptied, every in-bounds junction has been carved:
the open junctions are closed under lattice steps, and the junction lattice
of an odd-dimensioned grid is connected. -/
theorem GenInv.junction_open {m : Maze} (hI : GenInv m [])
    (hstart : m.start = (1, 1)) (h3w : 3 ≤ m.width) (h3h : 3 ≤ m.height) :
    ∀ p : Coord, m.isValid p.1 p.2 → p.1 % 2 = 1 → p.2 % 2 = 1 → m.grid p ≠ '#' := by
  have hstep : ∀ a b : Int, m.grid (a, b) ≠ '#' → a % 2 = 1 → b % 2 = 1 →
      ∀ q : Coord, (q = (a, b + 2) ∨ q = (a, b - 2) ∨ q = (a + 2, b) ∨ q = (a - 2, b)) →
        m.isValid q.1 q.2 → m.grid q ≠ '#' := by
    intro a b hab h1 h2 q hdir hqv hq
    exact hI.expand (a, b) hab h1 h2 (List.not_mem_nil _) q
      (mem_genNeighbors.mpr ⟨hdir, hqv, hq⟩)
  have hstartO : m.grid (1, 1) ≠ '#' := by
    have := hI.startO
    rwa [hstart] at this
  have hcol : ∀ k : Nat, 1 + 2 * (k : Int) < m.height →
      m.grid (1 + 2 * (k : Int), 1) ≠ '#' := by
    intro k
    induction k with
    | zero =>
      intro hk
      have he : ((1 + 2 * ((0 : Nat) : Int), (1 : Int)) : Coord) = (1, 1) :=
        coord_ext (by omega) rfl
      rw [he]
      exact hstartO
    | succ k ih =>
      intro hk
      have hk' : 1 + 2 * (k : Int) < m.height := by omega
      refine hstep (1 + 2 * (k : Int)) 1 (ih hk') (by omega) (by omega)
        (1 + 2 * ((k + 1 : Nat) : Int), 1) (Or.inr (Or.inr (Or.inl ?_))) ?_
      · exact coord_ext (by omega) rfl
      · exact Maze.isValid_iff.mpr ⟨by omega, by omega, by omega, by omega⟩
  have hrow : ∀ a : Int, m.grid (a, 1) ≠ '#' → a % 2 = 1 → 0 ≤ a → a < m.height →
      ∀ k : Nat, 1 + 2 * (k : Int) < m.width → m.grid (a, 1 + 2 * (k : Int)) ≠ '#' := by
    intro a ha haodd ha0 hah k
    induction k with
    | zero =>
      intro hk
      have he : ((a, 1 + 2 * ((0 : Nat) : Int)) : Coord) = (a, 1) :=
        coord_ext rfl (by omega)
      rw [he]
      exact ha
    | succ k ih =>
      intro hk
      have hk' : 1 + 2 * (k : Int) < m.width := by omega
      refine hstep a (1 + 2 * (k : Int)) (ih hk') haodd (by omega)
        (a, 1 + 2 * ((k + 1 : Nat) : Int)) (Or.inl ?_) ?_
      · exact coord_ext rfl (by omega)
      · exact Maze.isValid_iff.mpr ⟨ha0, hah, by omega, by omega⟩
  intro p hv h1 h2
  obtain ⟨hp0, hph, hq0, hqw⟩ := Maze.isValid_iff.mp hv
  obtain ⟨k1, hk1⟩ : ∃ k : Nat, p.1 = 1 + 2 * (k : Int) := ⟨(p.1 - 1).toNat / 2, by omega⟩
  obtain ⟨k2, hk2⟩ : ∃ k : Nat, p.2 = 1 + 2 * (k : Int) := ⟨(p.2 - 1).toNat / 2, by omega⟩
  have hcolp : m.grid (p.1, 1) ≠ '#' := by
    rw [hk1]
    exact hcol k1 (by omega)
  have := hrow p.1 hcolp h1 hp0 hph k2 (by omega)
  rw [← hk2] at this
  have he : ((p.1, p.2) : Coord) = p := rfl
  rwa [he] at this

/-! ## The state of a successfully generated maze -/

/-- Everything the claims need about the grid after `generate` succeeds. -/
structure GenDone (m' : Maze) : Prop where
  oob : ∀ p : Coord, ¬ m'.isValid p.1 p.2 → m'.grid p = '#'
  vals : ∀ p : Coord, m'.grid p = '#' ∨ m'.grid p = ' ' ∨ m'.grid p = 'S' ∨ m'.grid p = 'E'
  gridE : m'.grid m'.endPos = 'E'
  gridS : m'.start ≠ m'.endPos → m'.grid m'.start = 'S'
  onlyS : ∀ p : Coord, m'.grid p = 'S' → p = m'.start
  onlyE : ∀ p : Coord, m'.grid p = 'E' → p = m'.endPos
  parity : ∀ p : Coord, m'.grid p ≠ '#' → p.1 % 2 = 1 ∨ p.2 % 2 = 1
  connR : ∀ p : Coord, m'.grid p ≠ '#' → p.2 % 2 = 0 →
      m'.grid (p.1, p.2 - 1) ≠ '#' ∧ m'.grid (p.1, p.2 + 1) ≠ '#'
  connD : ∀ p : Coord, m'.grid p ≠ '#' → p.1 % 2 = 0 →
      m'.grid (p.1 - 1, p.2) ≠ '#' ∧ m'.grid (p.1 + 1, p.2) ≠ '#'
  junctions : ∀ p : Coord, m'.isValid p.1 p.2 → p.1 % 2 = 1 → p.2 % 2 = 1 →
      m'.grid p ≠ '#'
  startO : m'.grid m'.start ≠ '#'
  endO : m'.grid m'.endPos ≠ '#'
  unique : ∀ a b : Coord, m'.grid a ≠ '#' → m'.grid b ≠ '#' →
      ∃! l, PathTo (fun p => m'.grid p ≠ '#') a b l

/-- Master theorem about a successful `generate` on an odd-dimensioned maze
with both dimensions at least 3. -/
theorem generate_spec {w h : Int} (hw3 : 3 ≤ w) (hh3 : 3 ≤ h)
    (hwo : w % 2 = 1) (hho : h % 2 = 1) (cs : Nat → Nat) {m' : Maze}
    (hgen : (Maze.init w h).generate cs = some m') :
    m'.width = w ∧ m'.height = h ∧ m'.start = (1, 1) ∧ m'.endPos = (h - 2, w - 2) ∧
      GenDone m' := by
  unfold Maze.generate at hgen
  split at hgen
  · exact Option.noConfusion hgen
  rename_i m0 h0
  split at hgen
  · exact Option.noConfusion hgen
  rename_i m1 h1
  split at hgen
  · exact Option.noConfusion hgen
  rename_i m2 h2
  obtain ⟨hI0, hm0w, hm0h, hm0s, hm0e⟩ := genStart_inv hw3 hh3 hwo hho h0
  have hiw : (Maze.init w h).width = w := by
    show (if w % 2 = 0 then w + 1 else w) = w
    rw [if_neg (by omega)]
  have hih : (Maze.init w h).height = h := by
    show (if h % 2 = 0 then h + 1 else h) = h
    rw [if_neg (by omega)]
  have hfuel : 2 * (wallSet m0).card + ([(Maze.init w h).start] : List Coord).length
      < genFuel (Maze.init w h) := by
    have hcard := wallSet_card_le m0
    rw [hm0h, hm0w] at hcard
    unfold genFuel
    rw [hih, hiw, List.length_singleton]
    omega
  obtain ⟨m1', hm1', hI1'⟩ :=
    genLoop_spec (genFuel (Maze.init w h)) m0 [(Maze.init w h).start] cs 0 hI0 hfuel
  rw [h1] at hm1'
  have hm1eq : m1 = m1' := Option.some.inj hm1'
  subst hm1eq
  have hI1 : GenInv m1 [] := hI1'
  obtain ⟨hl1w, hl1h, hl1s, hl1e⟩ := genLoop_fields _ _ _ _ _ _ h1
  have hm1w : m1.width = w := hl1w.trans hm0w
  have hm1h : m1.height = h := hl1h.trans hm0h
  have hm1s : m1.start = ((1, 1) : Coord) := hl1s.trans hm0s
  have hm1e : m1.endPos = ((h - 2, w - 2) : Coord) := hl1e.trans hm0e
  have hstart1 : m1.grid ((1, 1) : Coord) ≠ '#' := by
    have := hI1.startO
    rwa [hm1s] at this
  have hjunc := hI1.junction_open hm1s (by rw [hm1w]; exact hw3) (by rw [hm1h]; exact hh3)
  have hend1 : m1.grid ((h - 2, w - 2) : Coord) ≠ '#' := by
    refine hjunc _ ?_ (by dsimp only; omega) (by dsimp only; omega)
    exact Maze.isValid_iff.mpr ⟨by dsimp only; omega,
      by dsimp only; rw [hm1h]; omega, by dsimp only; omega, by dsimp only; rw [hm1w]; omega⟩
  obtain ⟨hv2, hw2, hh2, hs2, he2, hg2⟩ := Maze.setCell_eq_some h2
  obtain ⟨hvE, hwE, hhE, hsE, heE, hgE⟩ := Maze.setCell_eq_some hgen
  have hm2s : m2.start = ((1, 1) : Coord) := hs2.trans hm1s
  have hm2e : m2.endPos = ((h - 2, w - 2) : Coord) := he2.trans hm1e
  have hfw : m'.width = w := hwE.trans (hw2.trans hm1w)
  have hfh : m'.height = h := hhE.trans (hh2.trans hm1h)
  have hfs : m'.start = ((1, 1) : Coord) := hsE.trans hm2s
  have hfe : m'.endPos = ((h - 2, w - 2) : Coord) := heE.trans hm2e
  have hchar : ∀ p : Coord, m'.grid p =
      if p = ((h - 2, w - 2) : Coord) then 'E'
      else if p = ((1, 1) : Coord) then 'S' else m1.grid p := by
    intro p
    rw [hgE p, hg2 p, hm2e, hm1s]
  have hopen : ∀ p : Coord, m'.grid p ≠ '#' ↔ m1.grid p ≠ '#' := by
    intro p
    rw [hchar p]
    split_ifs with e1 e2
    · constructor
      · intro _
        rw [e1]
        exact hend1
      · intro _
        decide
    · constructor
      · intro _
        rw [e2]
        exact hstart1
      · intro _
        decide
    · exact Iff.rfl
  have hvalid : ∀ p : Coord, m'.isValid p.1 p.2 ↔ m1.isValid p.1 p.2 := by
    intro p
    exact Maze.isValid_congr (hwE.trans hw2) (hhE.trans hh2) p.1 p.2
  refine ⟨hfw, hfh, hfs, hfe, ?_, ?_, ?_, ?_, ?_, ?_, ?_, ?_, ?_, ?_, ?_, ?_, ?_⟩
  · -- oob
    intro p hp
    have hp1 : ¬ m1.isValid p.1 p.2 := fun hx => hp ((hvalid p).mpr hx)
    rw [hchar p]
    have h1ne : p ≠ ((h - 2, w - 2) : Coord) := by
      intro he
      apply hp1
      rw [he]
      exact Maze.isValid_iff.mpr ⟨by dsimp only; omega, by dsimp only; rw [hm1h]; omega,
        by dsimp only; omega, by dsimp only; rw [hm1w]; omega⟩
    have h2ne : p ≠ ((1, 1) : Coord) := by
      intro he
      apply hp1
      rw [he]
      exact Maze.isValid_iff.mpr ⟨by omega, by rw [hm1h]; omega, by omega,
        by rw [hm1w]; omega⟩
    rw [if_neg h1ne, if_neg h2ne]
    exact hI1.oob p hp1
  · -- vals
    intro p
    rw [hchar p]
    split_ifs
    · exact Or.inr (Or.inr (Or.inr rfl))
    · exact Or.inr (Or.inr (Or.inl rfl))
    · rcases hI1.vals p with hv | hv
      · exact Or.inl hv
      · exact Or.inr (Or.inl hv)
  · -- gridE
    rw [hfe, hchar _, if_pos rfl]
  · -- gridS
    intro hne
    rw [hfs, hfe] at hne
    rw [hfs, hchar _, if_neg hne, if_pos rfl]
  · -- onlyS
    intro p hp
    rw [hchar p] at hp
    split_ifs at hp with e1 e2
    · cases hp
    · rw [hfs]
      exact e2
    · rcases hI1.vals p with hv | hv <;> rw [hv] at hp <;> cases hp
  · -- onlyE
    intro p hp
    rw [hchar p] at hp
    split_ifs at hp with e1 e2
    · rw [hfe]
      exact e1
    · cases hp
    · rcases hI1.vals p with hv | hv <;> rw [hv] at hp <;> cases hp
  · -- parity
    intro p hp
    exact hI1.parity p ((hopen p).mp hp)
  · -- connR
    intro p hp he
    have hcf := hI1.connR p ((hopen p).mp hp) he
    exact ⟨(hopen _).mpr hcf.1, (hopen _).mpr hcf.2⟩
  · -- connD
    intro p hp he
    have hcf := hI1.connD p ((hopen p).mp hp) he
    exact ⟨(hopen _).mpr hcf.1, (hopen _).mpr hcf.2⟩
  · -- junctions
    intro p hpv h1 h2
    exact (hopen p).mpr (hjunc p ((hvalid p).mp hpv) h1 h2)
  · -- startO
    rw [hfs]
    exact (hopen _).mpr hstart1
  · -- endO
    rw [hfe]
    exact (hopen _).mpr hend1
  · -- unique
    intro a b ha hb
    obtain ⟨l0, h0', hu⟩ := hI1.unique a b ((hopen a).mp ha) ((hopen b).mp hb)
    refine ⟨l0, ?_, ?_⟩
    · exact h0'.restrict (fun x hx => (hopen x).mpr (h0'.mem_open x hx))
    · intro l hl
      exact hu l (hl.restrict (fun x hx => (hopen x).mp (hl.mem_open x hx)))

/-- For odd dimensions at least 3, `generate` always succeeds. -/
theorem generate_isSome {w h : Int} (hw3 : 3 ≤ w) (hh3 : 3 ≤ h)
    (hwo : w % 2 = 1) (hho : h % 2 = 1) (cs : Nat → Nat) :
    ∃ m', (Maze.init w h).generate cs = some m' := by
  have hiw : (Maze.init w h).width = w := by
    show (if w % 2 = 0 then w + 1 else w) = w
    rw [if_neg (by omega)]
  have hih : (Maze.init w h).height = h := by
    show (if h % 2 = 0 then h + 1 else h) = h
    rw [if_neg (by omega)]
  unfold Maze.generate
  have h11v : (Maze.init w h).isValid (Maze.init w h).start.1 (Maze.init w h).start.2 := by
    have e1 : (Maze.init w h).start.1 = 1 := rfl
    have e2 : (Maze.init w h).start.2 = 1 := rfl
    rw [e1, e2]
    exact Maze.isValid_iff.mpr ⟨by omega, by rw [hih]; omega, by omega, by rw [hiw]; omega⟩
  cases h0 : (Maze.init w h).setCell (Maze.init w h).start.1 (Maze.init w h).start.2 ' ' with
  | none =>
    rw [Maze.setCell_eq_none] at h0
    exact absurd h11v h0
  | some m0 =>
    dsimp only
    obtain ⟨hI0, hm0w, hm0h, hm0s, hm0e⟩ := genStart_inv hw3 hh3 hwo hho h0
    have hfuel : 2 * (wallSet m0).card + ([(Maze.init w h).start] : List Coord).length
        < genFuel (Maze.init w h) := by
      have hcard := wallSet_card_le m0
      rw [hm0h, hm0w] at hcard
      unfold genFuel
      rw [hih, hiw, List.length_singleton]
      omega
    obtain ⟨m1, hm1, hI1⟩ :=
      genLoop_spec (genFuel (Maze.init w h)) m0 [(Maze.init w h).start] cs 0 hI0 hfuel
    rw [hm1]
    dsimp only
    obtain ⟨hl1w, hl1h, hl1s, hl1e⟩ := genLoop_fields _ _ _ _ _ _ hm1
    have hm1w : m1.width = w := hl1w.trans hm0w
    have hm1h : m1.height = h := hl1h.trans hm0h
    have hm1s : m1.start = ((1, 1) : Coord) := hl1s.trans hm0s
    have hm1e : m1.endPos = ((h - 2, w - 2) : Coord) := hl1e.trans hm0e
    have hsv : m1.isValid m1.start.1 m1.start.2 := by
      have e1 : m1.start.1 = 1 := by rw [hm1s]
      have e2 : m1.start.2 = 1 := by rw [hm1s]
      rw [e1, e2]
      exact Maze.isValid_iff.mpr ⟨by omega, by rw [hm1h]; omega, by omega,
        by rw [hm1w]; omega⟩
    cases h2 : m1.setCell m1.start.1 m1.start.2 'S' with
    | none =>
      rw [Maze.setCell_eq_none] at h2
      exact absurd hsv h2
    | some m2 =>
      dsimp only
      obtain ⟨-, hw2, hh2, -, he2, -⟩ := Maze.setCell_eq_some h2
      have hev : m2.isValid m2.endPos.1 m2.endPos.2 := by
        have e1 : m2.endPos.1 = h - 2 := by rw [he2.trans hm1e]
        have e2 : m2.endPos.2 = w - 2 := by rw [he2.trans hm1e]
        rw [e1, e2]
        exact Maze.isValid_iff.mpr ⟨by omega, by rw [hh2.trans hm1h]; omega, by omega,
          by rw [hw2.trans hm1w]; omega⟩
      cases hE : m2.setCell m2.endPos.1 m2.endPos.2 'E' with
      | none =>
        rw [Maze.setCell_eq_none] at hE
        exact absurd hev hE
      | some mf => exact ⟨mf, rfl⟩

/-! ## C1: generate produces a perfect maze -/

/-- **C1**: for all odd `width, height ≥ 3`, after a successful `generate()`
the open (non-`'#'`) cells form a perfect maze: every open cell is reachable
from `start` by a simple path of 4-directional moves through non-wall cells,
and between any two open cells there is exactly one simple path. -/
theorem C1_generate_perfect_maze (w h : Int) (hw3 : 3 ≤ w) (hh3 : 3 ≤ h)
    (hwo : w % 2 = 1) (hho : h % 2 = 1) (cs : Nat → Nat) (m' : Maze)
    (hgen : (Maze.init w h).generate cs = some m') :
    (∀ p : Coord, openCell m' p → ∃ l, PathTo (openCell m') m'.start p l) ∧
      (∀ a b : Coord, openCell m' a → openCell m' b →
        ∃! l, PathTo (openCell m') a b l) := by
  obtain ⟨hfw, hfh, hfs, hfe, hD⟩ := generate_spec hw3 hh3 hwo hho cs hgen
  have hiff : ∀ p : Coord, openCell m' p ↔ m'.grid p ≠ '#' := by
    intro p
    constructor
    · exact fun hp => hp.2
    · intro hp
      refine ⟨?_, hp⟩
      by_contra hv
      exact hp (hD.oob p hv)
  have huniq : ∀ a b : Coord, openCell m' a → openCell m' b →
      ∃! l, PathTo (openCell m') a b l := by
    intro a b ha hb
    obtain ⟨l0, h0, hu⟩ := hD.unique a b ((hiff a).mp ha) ((hiff b).mp hb)
    refine ⟨l0, h0.restrict (fun x hx => (hiff x).mpr (h0.mem_open x hx)), ?_⟩
    intro l hl
    exact hu l (hl.restrict (fun x hx => (hiff x).mp (hl.mem_open x hx)))
  refine ⟨?_, huniq⟩
  intro p hp
  have hsO : openCell m' m'.start := (hiff _).mpr hD.startO
  obtain ⟨l0, h0, -⟩ := huniq m'.start p hsO hp
  exact ⟨l0, h0⟩

/-- Witness for C1: the concrete `5 × 5` maze generated with the all-zero
choice stream. -/
theorem C1_generate_perfect_maze_witness :
    ∃ m', (Maze.init 5 5).generate (fun _ => 0) = some m' ∧
      ((∀ p : Coord, openCell m' p → ∃ l, PathTo (openCell m') m'.start p l) ∧
        (∀ a b : Coord, openCell m' a → openCell m' b →
          ∃! l, PathTo (openCell m') a b l)) := by
  have hs : ((Maze.init 5 5).generate (fun _ => 0)).isSome = true := rfl
  cases hgen : (Maze.init 5 5).generate (fun _ => 0) with
  | none =>
    rw [hgen] at hs
    cases hs
  | some m =>
    exact ⟨m, rfl, C1_generate_perfect_maze 5 5 (by norm_num) (by norm_num)
      (by norm_num) (by norm_num) (fun _ => 0) m hgen⟩

/-! ## C10: bounds behaviour of generate -/

/-- Normalizing twice changes nothing: `Maze.init` on already-normalized odd
dimensions builds the same maze. -/
theorem init_normalize (w h : Int) :
    Maze.init w h
      = Maze.init (if w % 2 = 0 then w + 1 else w) (if h % 2 = 0 then h + 1 else h) := by
  unfold Maze.init
  have ew : (if (if w % 2 = 0 then w + 1 else w) % 2 = 0
      then (if w % 2 = 0 then w + 1 else w) + 1 else (if w % 2 = 0 then w + 1 else w))
      = (if w % 2 = 0 then w + 1 else w) := by
    split_ifs <;> omega
  have eh : (if (if h % 2 = 0 then h + 1 else h) % 2 = 0
      then (if h % 2 = 0 then h + 1 else h) + 1 else (if h % 2 = 0 then h + 1 else h))
      = (if h % 2 = 0 then h + 1 else h) := by
    split_ifs <;> omega
  dsimp only
  rw [ew, eh]

/-- The normalized dimensions are odd. -/
theorem init_width_odd (w h : Int) : (Maze.init w h).width % 2 = 1 := by
  show (if w % 2 = 0 then w + 1 else w) % 2 = 1
  split_ifs <;> omega

theorem init_height_odd (w h : Int) : (Maze.init w h).height % 2 = 1 := by
  show (if h % 2 = 0 then h + 1 else h) % 2 = 1
  split_ifs <;> omega

/-- **C10**: when either normalized dimension is 1, the very first grid write
of `generate()` — `self.grid[1][1] = ' '` at `start = (1, 1)` — is out of
bounds, so in the embedding (where Python list writes that would raise
`IndexError` return `none`) the error branch of `generate()` is reached; and
when both normalized dimensions are at least 3, every grid access of
`generate()` is in bounds and it succeeds. -/
theorem C10_generate_bounds (w h : Int) (cs : Nat → Nat) :
    (((Maze.init w h).width = 1 ∨ (Maze.init w h).height = 1) →
      (Maze.init w h).setCell 1 1 ' ' = none ∧ (Maze.init w h).generate cs = none) ∧
    ((3 ≤ (Maze.init w h).width ∧ 3 ≤ (Maze.init w h).height) →
      ∃ m', (Maze.init w h).generate cs = some m') := by
  constructor
  · intro hdim
    have hval : ¬ (Maze.init w h).isValid 1 1 := by
      intro hv
      have := Maze.isValid_iff.mp hv
      rcases hdim with h1 | h1 <;> omega
    have hset : (Maze.init w h).setCell 1 1 ' ' = none := Maze.setCell_eq_none.mpr hval
    refine ⟨hset, ?_⟩
    unfold Maze.generate
    have hset' : (Maze.init w h).setCell (Maze.init w h).start.1 (Maze.init w h).start.2 ' '
        = none := hset
    rw [hset']
  · intro ⟨hw3, hh3⟩
    rw [init_normalize w h]
    have hwo := init_width_odd w h
    have hho := init_height_odd w h
    exact generate_isSome (show (3 : Int) ≤ _ from hw3) (show (3 : Int) ≤ _ from hh3)
      (show _ % 2 = 1 from hwo) (show _ % 2 = 1 from hho) cs

/-- Witness for C10 at the concrete inputs `(1, 1)` (degenerate, first write
fails) and `(5, 5)` (valid, generation succeeds). -/
theorem C10_generate_bounds_witness :
    ((Maze.init 1 1).setCell 1 1 ' ' = none ∧
      (Maze.init 1 1).generate (fun _ => 0) = none) ∧
    ∃ m', (Maze.init 5 5).generate (fun _ => 0) = some m' :=
  ⟨(C10_generate_bounds 1 1 (fun _ => 0)).1 (Or.inl rfl),
    (C10_generate_bounds 5 5 (fun _ => 0)).2 (by decide)⟩

/-! ## C5: marker cells after generation -/

/-- All in-bounds coordinates, row-major. -/
def validCoordList (m : Maze) : List Coord :=
  (List.range m.height.toNat).bind
    (fun (r : Nat) => (List.range m.width.toNat).map
      (fun (c : Nat) => (((r : Int), (c : Int)) : Coord)))

/-- Number of in-bounds cells holding the glyph `ch`. -/
def countCell (m : Maze) (ch : Char) : Nat :=
  (validCoordList m).countP (fun p => m.grid p == ch)

theorem mem_validCoordList {m : Maze} {p : Coord} :
    p ∈ validCoordList m ↔ m.isValid p.1 p.2 := by
  unfold validCoordList
  rw [List.mem_bind]
  constructor
  · rintro ⟨r, hr, hm⟩
    rw [List.mem_map] at hm
    obtain ⟨c, hc, rfl⟩ := hm
    rw [List.mem_range] at hr hc
    show m.isValid ((r : Nat) : Int) ((c : Nat) : Int)
    exact Maze.isValid_iff.mpr ⟨by omega, by omega, by omega, by omega⟩
  · intro hv
    obtain ⟨h0, hh, h0', hw⟩ := Maze.isValid_iff.mp hv
    refine ⟨p.1.toNat, List.mem_range.mpr (by omega), ?_⟩
    rw [List.mem_map]
    refine ⟨p.2.toNat, List.mem_range.mpr (by omega), ?_⟩
    show (((p.1.toNat : Int), (p.2.toNat : Int)) : Coord) = p
    have he : p = ((p.1, p.2) : Coord) := rfl
    rw [he]
    exact coord_ext (by omega) (by omega)

theorem validCoordList_nodup (m : Maze) : (validCoordList m).Nodup := by
  unfold validCoordList
  rw [List.nodup_bind]
  refine ⟨?_, ?_⟩
  · intro r hr
    refine List.Nodup.map ?_ (List.nodup_range _)
    intro a b hab
    have h2 := congrArg Prod.snd hab
    dsimp only at h2
    omega
  · refine (List.nodup_range _).pairwise_of_forall_ne ?_
    intro a ha b hb hab x hx1 hx2
    rw [List.mem_map] at hx1 hx2
    obtain ⟨c1, -, rfl⟩ := hx1
    obtain ⟨c2, -, he⟩ := hx2
    have h1 := congrArg Prod.fst he
    dsimp only at h1
    have hba : b = a := by omega
    exact hab hba.symm

/-- If exactly one member of a duplicate-free list satisfies the predicate,
the count is one. -/
theorem countP_eq_one_of_unique {l : List Coord} {f : Coord → Bool} {x : Coord}
    (hnd : l.Nodup) (hx : x ∈ l) (hf : ∀ y ∈ l, f y = true ↔ y = x) :
    l.countP f = 1 := by
  induction l with
  | nil => cases hx
  | cons a l ih =>
    rw [List.countP_cons]
    obtain ⟨hal, hl⟩ := List.nodup_cons.mp hnd
    rcases List.mem_cons.mp hx with rfl | hx
    · have hfa : f x = true := (hf x (List.mem_cons_self x l)).mpr rfl
      have h0 : l.countP f = 0 := by
        rw [List.countP_eq_zero]
        intro y hy hfy
        have := (hf y (List.mem_cons_of_mem x hy)).mp hfy
        exact hal (this ▸ hy)
      rw [h0, if_pos hfa]
    · have hfa : ¬ f a = true := by
        intro hfa
        have := (hf a (List.mem_cons_self a l)).mp hfa
        exact hal (this ▸ hx)
      have h1 : l.countP f = 1 :=
        ih hl hx (fun y hy => hf y (List.mem_cons_of_mem a hy))
      rw [h1, if_neg hfa]

/-- In a generated maze, the claims' open-cell notion coincides with
"non-wall glyph". -/
theorem GenDone.openGrid_iff {m' : Maze} (hD : GenDone m') (p : Coord) :
    openCell m' p ↔ m'.grid p ≠ '#' := by
  constructor
  · exact fun hp => hp.2
  · intro hp
    refine ⟨?_, hp⟩
    by_contra hv
    exact hp (hD.oob p hv)

/-- The `3 × 3` maze generated with the all-zero choice stream, a concrete
counterexample input. -/
def mz3 : Maze := ((Maze.init 3 3).generate (fun _ => 0)).getD (Maze.init 3 3)

/-- **C5** counterexample: on `3 × 3` dimensions (positive, and the smallest
odd ones) `start = (1,1) = (height-2, width-2) = end`, so the final
`'E'` write overwrites the `'S'` marker: after `generate()` the grid has
*no* `'S'` cell, refuting "exactly one cell marked Start". -/
theorem C5_cex_no_start_marker :
    (Maze.init 3 3).generate (fun _ => 0) = some mz3 ∧
      mz3.start = mz3.endPos ∧ countCell mz3 'S' = 0 ∧ countCell mz3 'E' = 1 := by
  refine ⟨rfl, by decide, by decide, by decide⟩

/-- **C5** (amended): for odd `width, height ≥ 3` other than `3 × 3`, after a
successful `generate()` the grid contains exactly one `'S'` cell and exactly
one `'E'` cell, at `start = (1,1)` and `end = (height-2, width-2)`
respectively; on `3 × 3` grids `start = end` and the single shared cell
holds `'E'` (the `'E'` write overwrites `'S'`). -/
theorem C5_amended_markers (w h : Int) (hw3 : 3 ≤ w) (hh3 : 3 ≤ h)
    (hwo : w % 2 = 1) (hho : h % 2 = 1) (hne : ¬ (w = 3 ∧ h = 3))
    (cs : Nat → Nat) (m' : Maze) (hgen : (Maze.init w h).generate cs = some m') :
    countCell m' 'S' = 1 ∧ countCell m' 'E' = 1 ∧
      m'.grid m'.start = 'S' ∧ m'.grid m'.endPos = 'E' ∧
      m'.start = (1, 1) ∧ m'.endPos = (h - 2, w - 2) := by
  obtain ⟨hfw, hfh, hfs, hfe, hD⟩ := generate_spec hw3 hh3 hwo hho cs hgen
  have hsne : m'.start ≠ m'.endPos := by
    rw [hfs, hfe]
    intro he
    have h1 := congrArg Prod.fst he
    have h2 := congrArg Prod.snd he
    dsimp only at h1 h2
    exact hne ⟨by omega, by omega⟩
  have hS := hD.gridS hsne
  have hstartv : m'.isValid m'.start.1 m'.start.2 := by
    by_contra hv
    have := hD.oob _ hv
    rw [hS] at this
    exact absurd this (by decide)
  have hendv : m'.isValid m'.endPos.1 m'.endPos.2 := by
    by_contra hv
    have := hD.oob _ hv
    rw [hD.gridE] at this
    exact absurd this (by decide)
  refine ⟨?_, ?_, hS, hD.gridE, hfs, hfe⟩
  · refine countP_eq_one_of_unique (validCoordList_nodup m')
      (mem_validCoordList.mpr hstartv) ?_
    intro y hy
    rw [beq_iff_eq]
    constructor
    · exact hD.onlyS y
    · intro hyx
      rw [hyx]
      exact hS
  · refine countP_eq_one_of_unique (validCoordList_nodup m')
      (mem_validCoordList.mpr hendv) ?_
    intro y hy
    rw [beq_iff_eq]
    constructor
    · exact hD.onlyE y
    · intro hyx
      rw [hyx]
      exact hD.gridE

/-- Witness for the amended C5 at the concrete input `(5, 5)`. -/
theorem C5_amended_markers_witness :
    ∃ m', (Maze.init 5 5).generate (fun _ => 0) = some m' ∧
      (countCell m' 'S' = 1 ∧ countCell m' 'E' = 1 ∧
        m'.grid m'.start = 'S' ∧ m'.grid m'.endPos = 'E' ∧
        m'.start = (1, 1) ∧ m'.endPos = ((5 : Int) - 2, (5 : Int) - 2)) := by
  have hs : ((Maze.init 5 5).generate (fun _ => 0)).isSome = true := rfl
  cases hgen : (Maze.init 5 5).generate (fun _ => 0) with
  | none =>
    rw [hgen] at hs
    cases hs
  | some m =>
    exact ⟨m, rfl, C5_amended_markers 5 5 (by norm_num) (by norm_num) (by norm_num)
      (by norm_num) (by norm_num) (fun _ => 0) m hgen⟩

/-! ## C6: parity of carved passages and walls -/

/-- **C6** counterexample: the spec's even/odd assignment is the reverse of
the code's.  In the generated `3 × 3` maze the open cell `(1, 1)` — a carved
passage junction — has odd row and column, so it is neither an even–even
junction nor an odd wall cell flanked by two adjacent even-coordinate open
junctions, refuting the claim. -/
theorem C6_cex_parity_swapped :
    (Maze.init 3 3).generate (fun _ => 0) = some mz3 ∧
      ¬ (∀ p : Coord, openCell mz3 p →
        (p.1 % 2 = 0 ∧ p.2 % 2 = 0) ∨
        (p.1 % 2 = 1 ∧ p.2 % 2 = 0 ∧ openCell mz3 (p.1 - 1, p.2) ∧
          openCell mz3 (p.1 + 1, p.2) ∧ (p.1 - 1) % 2 = 0 ∧ (p.1 + 1) % 2 = 0) ∨
        (p.1 % 2 = 0 ∧ p.2 % 2 = 1 ∧ openCell mz3 (p.1, p.2 - 1) ∧
          openCell mz3 (p.1, p.2 + 1) ∧ (p.2 - 1) % 2 = 0 ∧ (p.2 + 1) % 2 = 0)) := by
  refine ⟨rfl, fun hc => ?_⟩
  have := hc (1, 1) (by decide)
  revert this
  decide

/-- **C6** (amended): after a successful `generate()` on odd dimensions
`≥ 3`, every open cell either is a junction on *odd* row and column
coordinates, or is a carved wall cell with exactly one *even* coordinate
lying between two adjacent odd coordinates whose two flanking cells are open
junctions. -/
theorem C6_amended_parity (w h : Int) (hw3 : 3 ≤ w) (hh3 : 3 ≤ h)
    (hwo : w % 2 = 1) (hho : h % 2 = 1) (cs : Nat → Nat) (m' : Maze)
    (hgen : (Maze.init w h).generate cs = some m') :
    ∀ p : Coord, openCell m' p →
      (p.1 % 2 = 1 ∧ p.2 % 2 = 1) ∨
      (p.1 % 2 = 0 ∧ p.2 % 2 = 1 ∧ openCell m' (p.1 - 1, p.2) ∧
        openCell m' (p.1 + 1, p.2) ∧ (p.1 - 1) % 2 = 1 ∧ (p.1 + 1) % 2 = 1) ∨
      (p.1 % 2 = 1 ∧ p.2 % 2 = 0 ∧ openCell m' (p.1, p.2 - 1) ∧
        openCell m' (p.1, p.2 + 1) ∧ (p.2 - 1) % 2 = 1 ∧ (p.2 + 1) % 2 = 1) := by
  obtain ⟨hfw, hfh, hfs, hfe, hD⟩ := generate_spec hw3 hh3 hwo hho cs hgen
  intro p hp
  have hO := (hD.openGrid_iff p).mp hp
  rcases hD.parity p hO with h1 | h2
  · by_cases h2' : p.2 % 2 = 1
    · exact Or.inl ⟨h1, h2'⟩
    · have he : p.2 % 2 = 0 := by omega
      obtain ⟨hf1, hf2⟩ := hD.connR p hO he
      exact Or.inr (Or.inr ⟨h1, he, (hD.openGrid_iff _).mpr hf1, (hD.openGrid_iff _).mpr hf2,
        by omega, by omega⟩)
  · by_cases h1' : p.1 % 2 = 1
    · exact Or.inl ⟨h1', h2⟩
    · have he : p.1 % 2 = 0 := by omega
      obtain ⟨hf1, hf2⟩ := hD.connD p hO he
      exact Or.inr (Or.inl ⟨he, h2, (hD.openGrid_iff _).mpr hf1, (hD.openGrid_iff _).mpr hf2,
        by omega, by omega⟩)

/-- Witness for the amended C6 at the concrete input `(5, 5)`. -/
theorem C6_amended_parity_witness :
    ∃ m', (Maze.init 5 5).generate (fun _ => 0) = some m' ∧
      ∀ p : Coord, openCell m' p →
        (p.1 % 2 = 1 ∧ p.2 % 2 = 1) ∨
        (p.1 % 2 = 0 ∧ p.2 % 2 = 1 ∧ openCell m' (p.1 - 1, p.2) ∧
          openCell m' (p.1 + 1, p.2) ∧ (p.1 - 1) % 2 = 1 ∧ (p.1 + 1) % 2 = 1) ∨
        (p.1 % 2 = 1 ∧ p.2 % 2 = 0 ∧ openCell m' (p.1, p.2 - 1) ∧
          openCell m' (p.1, p.2 + 1) ∧ (p.2 - 1) % 2 = 1 ∧ (p.2 + 1) % 2 = 1) := by
  have hs : ((Maze.init 5 5).generate (fun _ => 0)).isSome = true := rfl
  cases hgen : (Maze.init 5 5).generate (fun _ => 0) with
  | none =>
    rw [hgen] at hs
    cases hs
  | some m =>
    exact ⟨m, rfl, C6_amended_parity 5 5 (by norm_num) (by norm_num) (by norm_num)
      (by norm_num) (fun _ => 0) m hgen⟩

/-! ## BFS solver: walks, parent chains, and the backtracking loop -/

/-- Walks (not necessarily simple) from `a` to `b` through cells satisfying
`O`, measured by the number of adjacency steps. -/
inductive WalkTo (O : Coord → Prop) : Coord → Coord → Nat → Prop
  | single {a : Coord} : O a → WalkTo O a a 0
  | snoc {a b c : Coord} {n : Nat} : WalkTo O a b n → adjStep b c → O c →
      WalkTo O a c (n + 1)

theorem WalkTo.cons_step {O : Coord → Prop} {a b c : Coord} {n : Nat}
    (hOa : O a) (hadj : adjStep a b) (h : WalkTo O b c n) : WalkTo O a c (n + 1) := by
  induction h with
  | single hOb => exact WalkTo.snoc (WalkTo.single hOa) hadj hOb
  | snoc hw hadj2 hOc ih => exact WalkTo.snoc ih hadj2 hOc

/-- Every simple path is in particular a walk, with one step fewer than it
has cells. -/
theorem WalkTo.of_pathTo {O : Coord → Prop} {a b : Coord} {l : List Coord}
    (h : PathTo O a b l) : WalkTo O a b (l.length - 1) := by
  induction h with
  | single a ha => exact WalkTo.single ha
  | cons a b c l ha hadj hnotin hp ih =>
    have hlen : 1 ≤ l.length := List.length_pos.mpr hp.ne_nil
    have h2 : WalkTo O a c (l.length - 1 + 1) := WalkTo.cons_step ha hadj ih
    have e : l.length - 1 + 1 = (a :: l).length - 1 := by
      simp only [List.length_cons]
      omega
    exact e ▸ h2

/-- A list of cells through `O` whose consecutive members are adjacent is a
walk from its head to its last element. -/
theorem WalkTo.of_list {O : Coord → Prop} :
    ∀ (l : List Coord) (a b : Coord), l.head? = some a → l.getLast? = some b →
      List.Chain' adjStep l → (∀ p ∈ l, O p) → WalkTo O a b (l.length - 1)
  | [], a, b => by
    intro hh _ _ _
    exact Option.noConfusion hh
  | [x], a, b => by
    intro hh hl _ hO
    rw [List.head?_cons] at hh
    rw [List.getLast?_singleton] at hl
    have ha := Option.some.inj hh
    have hb := Option.some.inj hl
    subst ha
    subst hb
    exact WalkTo.single (hO x (List.mem_singleton.mpr rfl))
  | x :: y :: t, a, b => by
    intro hh hl hc hO
    rw [List.head?_cons] at hh
    have ha := Option.some.inj hh
    subst ha
    rw [List.chain'_cons] at hc
    rw [List.getLast?_cons_cons] at hl
    have ih := WalkTo.of_list (y :: t) y b rfl hl hc.2
      (fun p hp => hO p (List.mem_cons_of_mem x hp))
    have h2 := WalkTo.cons_step (hO x (List.mem_cons_self x _)) hc.1 ih
    have e : (y :: t).length - 1 + 1 = (x :: y :: t).length - 1 := by
      simp only [List.length_cons]
      omega
    exact e ▸ h2

/-- Parent chains of the BFS parent map: following `par` from `x` reaches
`start` in `n` adjacency steps and then stops (`parent_map[start] = None`). -/
inductive ParChain (m : Maze) (par : Coord → Option Coord) : Coord → Nat → Prop
  | base : par m.start = none → ParChain m par m.start 0
  | step {y x : Coord} {n : Nat} : ParChain m par y n → par x = some y →
      adjStep y x → ParChain m par x (n + 1)

/-- A parent chain survives any update of the parent map performed away from
the visited cells, provided all the cells it touches are visited. -/
theorem ParChain.of_agree {m : Maze} {par par' : Coord → Option Coord}
    {vis : Coord → Bool} (hsv : vis m.start = true)
    (hpv : ∀ x y, par x = some y → vis y = true)
    (hagree : ∀ x, vis x = true → par' x = par x) :
    ∀ {x : Coord} {n : Nat}, ParChain m par x n → vis x = true → ParChain m par' x n := by
  intro x n hc
  induction hc with
  | base hps => exact fun _ => ParChain.base ((hagree _ hsv).trans hps)
  | step hcy hpar hadj ih =>
    intro hx
    exact ParChain.step (ih (hpv _ _ hpar)) ((hagree _ hx).trans hpar) hadj

theorem backtrack_succ_some (fuel : Nat) (par : Coord → Option Coord) (cur : Coord)
    (acc : List Coord) :
    backtrack (fuel + 1) par (some cur) acc = backtrack fuel par (par cur) (acc ++ [cur]) := rfl

/-- Whatever list the reconstruction loop produces by following a parent
chain of length `n` is that chain: it extends the accumulator by `n + 1`
cells, running from the chain's endpoint back to `start`, and its reversal
steps through adjacent cells. -/
theorem backtrack_sound {m : Maze} {par : Coord → Option Coord} :
    ∀ {x : Coord} {n : Nat}, ParChain m par x n →
      ∀ (fuel : Nat) (acc L : List Coord),
        backtrack fuel par (some x) acc = some L →
        ∃ l, L = acc ++ l ∧ l.length = n + 1 ∧ l.head? = some x ∧
          l.getLast? = some m.start ∧ List.Chain' adjStep l.reverse := by
  intro x n hc
  induction hc with
  | base hps =>
    intro fuel acc L hbt
    cases fuel with
    | zero => exact Option.noConfusion hbt
    | succ f =>
      rw [backtrack_succ_some, hps] at hbt
      cases f with
      | zero => exact Option.noConfusion hbt
      | succ f2 =>
        refine ⟨[m.start], (Option.some.inj hbt).symm, rfl, rfl, rfl, ?_⟩
        simp
  | step hcy hpar hadj ih =>
    rename_i y x2 n2
    intro fuel acc L hbt
    cases fuel with
    | zero => exact Option.noConfusion hbt
    | succ f =>
      rw [backtrack_succ_some, hpar] at hbt
      obtain ⟨ly, hLy, hlen, hhead, hlast, hch⟩ := ih f (acc ++ [x2]) L hbt
      have hlyne : ly ≠ [] := by
        intro h0
        rw [h0] at hhead
        exact Option.noConfusion hhead
      refine ⟨x2 :: ly, ?_, ?_, rfl, ?_, ?_⟩
      · rw [hLy, List.append_assoc]
        rfl
      · rw [List.length_cons, hlen]
      · cases ly with
        | nil => exact absurd rfl hlyne
        | cons z t =>
          rw [List.getLast?_cons_cons]
          exact hlast
      · rw [List.reverse_cons, List.chain'_append]
        refine ⟨hch, List.chain'_singleton x2, ?_⟩
        intro u hu v hv
        rw [List.getLast?_reverse, hhead, Option.mem_def] at hu
        rw [List.head?_cons, Option.mem_def] at hv
        have hu' := Option.some.inj hu
        have hv' := Option.some.inj hv
        subst hu'
        subst hv'
        exact hadj

/-- With fuel exceeding the chain length by two, the reconstruction loop
succeeds. -/
theorem backtrack_complete {m : Maze} {par : Coord → Option Coord} :
    ∀ {x : Coord} {n : Nat}, ParChain m par x n →
      ∀ (fuel : Nat) (acc : List Coord), n + 2 ≤ fuel →
        (backtrack fuel par (some x) acc).isSome = true := by
  intro x n hc
  induction hc with
  | base hps =>
    intro fuel acc hf
    cases fuel with
    | zero => omega
    | succ f =>
      rw [backtrack_succ_some, hps]
      cases f with
      | zero => omega
      | succ f2 => rfl
  | step hcy hpar hadj ih =>
    rename_i y x2 n2
    intro fuel acc hf
    cases fuel with
    | zero => omega
    | succ f =>
      rw [backtrack_succ_some, hpar]
      exact ih f (acc ++ [x2]) (by omega)

theorem adjStep_of_dir {cur d : Coord} (hd : d ∈ solveDirections) :
    adjStep cur (cur.1 + d.1, cur.2 + d.2) := by
  unfold solveDirections at hd
  unfold adjStep
  simp only [List.mem_cons, List.not_mem_nil, or_false] at hd
  rcases hd with rfl | rfl | rfl | rfl <;> (dsimp only; omega)

theorem expandNbrs_cons (m : Maze) (cur d : Coord) (ds : List Coord) (q : List Coord)
    (vis : Coord → Bool) (par : Coord → Option Coord) :
    expandNbrs m cur (d :: ds) q vis par =
      if m.isValid (cur.1 + d.1) (cur.2 + d.2) ∧ m.grid (cur.1 + d.1, cur.2 + d.2) ≠ '#' ∧
          vis (cur.1 + d.1, cur.2 + d.2) = false then
        expandNbrs m cur ds (q ++ [(cur.1 + d.1, cur.2 + d.2)])
          (fun p => decide (p = (cur.1 + d.1, cur.2 + d.2)) || vis p)
          (fun p => if p = (cur.1 + d.1, cur.2 + d.2) then some cur else par p)
      else expandNbrs m cur ds q vis par := rfl

/-- Characterization of the inner neighbour-expansion loop of `solve`: it
appends to the queue a duplicate-free list `news` of open, previously
unvisited cells adjacent to `cur`, marks exactly those visited, makes `cur`
their parent, and catches every open unvisited neighbour in a scanned
direction. -/
theorem expandNbrs_spec (m : Maze) (cur : Coord) :
    ∀ (ds : List Coord) (q0 : List Coord) (vis : Coord → Bool) (par : Coord → Option Coord),
      (∀ d ∈ ds, adjStep cur (cur.1 + d.1, cur.2 + d.2)) →
      ∃ news : List Coord,
        (expandNbrs m cur ds q0 vis par).1 = q0 ++ news ∧
        news.Nodup ∧
        (∀ nb ∈ news, openCell m nb ∧ vis nb = false ∧ adjStep cur nb) ∧
        (∀ x, ((expandNbrs m cur ds q0 vis par).2.1 x = true ↔ (vis x = true ∨ x ∈ news))) ∧
        (∀ x, (expandNbrs m cur ds q0 vis par).2.2 x =
          if x ∈ news then some cur else par x) ∧
        (∀ d ∈ ds, openCell m (cur.1 + d.1, cur.2 + d.2) →
          vis (cur.1 + d.1, cur.2 + d.2) = true ∨ (cur.1 + d.1, cur.2 + d.2) ∈ news) := by
  intro ds
  induction ds with
  | nil =>
    intro q0 vis par hds
    refine ⟨[], ?_, List.nodup_nil, ?_, ?_, ?_, ?_⟩
    · rw [List.append_nil]
      rfl
    · intro nb hnb
      exact absurd hnb (List.not_mem_nil nb)
    · intro x
      constructor
      · exact fun h => Or.inl h
      · rintro (h | h)
        · exact h
        · exact absurd h (List.not_mem_nil x)
    · intro x
      rw [if_neg (List.not_mem_nil x)]
      rfl
    · intro d hd
      exact absurd hd (List.not_mem_nil d)
  | cons d ds ih =>
    intro q0 vis par hds
    by_cases hcnd : m.isValid (cur.1 + d.1) (cur.2 + d.2) ∧
        m.grid (cur.1 + d.1, cur.2 + d.2) ≠ '#' ∧ vis (cur.1 + d.1, cur.2 + d.2) = false
    · rw [expandNbrs_cons, if_pos hcnd]
      obtain ⟨news, hq, hnd, hmem, hvis, hpar, hex⟩ :=
        ih (q0 ++ [(cur.1 + d.1, cur.2 + d.2)])
          (fun p => decide (p = (cur.1 + d.1, cur.2 + d.2)) || vis p)
          (fun p => if p = (cur.1 + d.1, cur.2 + d.2) then some cur else par p)
          (fun d' hd' => hds d' (List.mem_cons_of_mem d hd'))
      have hnbn : (cur.1 + d.1, cur.2 + d.2) ∉ news := by
        intro hmm
        have := (hmem _ hmm).2.1
        simp at this
      refine ⟨(cur.1 + d.1, cur.2 + d.2) :: news, ?_, ?_, ?_, ?_, ?_, ?_⟩
      · rw [hq, List.append_assoc]
        rfl
      · exact List.nodup_cons.mpr ⟨hnbn, hnd⟩
      · intro nb hnb
        rcases List.mem_cons.mp hnb with rfl | hnb2
        · exact ⟨⟨hcnd.1, hcnd.2.1⟩, hcnd.2.2, hds d (List.mem_cons_self d ds)⟩
        · have h1 := (hmem nb hnb2).2.1
          simp only [Bool.or_eq_false_iff, decide_eq_false_iff_not] at h1
          exact ⟨(hmem nb hnb2).1, h1.2, (hmem nb hnb2).2.2⟩
      · intro x
        rw [hvis x]
        simp only [Bool.or_eq_true, decide_eq_true_eq, List.mem_cons]
        tauto
      · intro x
        rw [hpar x]
        by_cases hx1 : x ∈ news
        · rw [if_pos hx1, if_pos (List.mem_cons_of_mem _ hx1)]
        · by_cases hx2 : x = (cur.1 + d.1, cur.2 + d.2)
          · rw [if_neg hx1, if_pos hx2, if_pos (List.mem_cons.mpr (Or.inl hx2))]
          · have hx3 : x ∉ (cur.1 + d.1, cur.2 + d.2) :: news := by
              intro hmm
              rcases List.mem_cons.mp hmm with h | h
              · exact hx2 h
              · exact hx1 h
            rw [if_neg hx1, if_neg hx2, if_neg hx3]
      · intro d' hd' hopen
        rcases List.mem_cons.mp hd' with rfl | hd'2
        · exact Or.inr (List.mem_cons_self _ _)
        · rcases hex d' hd'2 hopen with h1 | h1
          · simp only [Bool.or_eq_true, decide_eq_true_eq] at h1
            rcases h1 with h1 | h1
            · exact Or.inr (List.mem_cons.mpr (Or.inl h1))
            · exact Or.inl h1
          · exact Or.inr (List.mem_cons_of_mem _ h1)
    · rw [expandNbrs_cons, if_neg hcnd]
      obtain ⟨news, hq, hnd, hmem, hvis, hpar, hex⟩ :=
        ih q0 vis par (fun d' hd' => hds d' (List.mem_cons_of_mem d hd'))
      refine ⟨news, hq, hnd, hmem, hvis, hpar, ?_⟩
      intro d' hd' hopen
      rcases List.mem_cons.mp hd' with rfl | hd'2
      · left
        by_contra hv
        exact hcnd ⟨hopen.1, hopen.2, Bool.eq_false_iff.mpr hv⟩
      · exact hex d' hd'2 hopen

/-- Loop invariant of the BFS `while queue:` loop, with a ghost distance
assignment `D` on visited cells: the queue holds visited cells, sorted by
`D` and spanning at most two consecutive `D` values; dequeued ("settled")
cells have `D` at most that of every queued cell and have had all their open
neighbours visited; every recorded parent is visited; and every visited cell
carries a parent chain back to `start` of length exactly `D`. -/
structure SolveInv (m : Maze) (q : List Coord) (vis : Coord → Bool)
    (par : Coord → Option Coord) (D : Coord → Nat) : Prop where
  startV : vis m.start = true
  startP : par m.start = none
  startD : D m.start = 0
  qVis : ∀ x ∈ q, vis x = true
  qNd : q.Nodup
  qSorted : q.Pairwise (fun a b => D a ≤ D b)
  qBand : ∀ x ∈ q, ∀ y ∈ q, D x ≤ D y + 1
  settleLe : ∀ x, vis x = true → x ∉ q → ∀ y ∈ q, D x ≤ D y
  settleExp : ∀ x, vis x = true → x ∉ q → ∀ y : Coord, adjStep x y → openCell m y →
      vis y = true ∧ D y ≤ D x + 1
  parVis : ∀ x y, par x = some y → vis y = true
  chain : ∀ x, vis x = true → ParChain m par x (D x)

/-- The head of the queue minimizes `D` over the queue. -/
theorem SolveInv.head_min {m : Maze} {v1 : Coord} {rest : List Coord}
    {vis : Coord → Bool} {par : Coord → Option Coord} {D : Coord → Nat}
    (hI : SolveInv m (v1 :: rest) vis par D) :
    ∀ y ∈ v1 :: rest, D v1 ≤ D y := by
  intro y hy
  rcases List.mem_cons.mp hy with rfl | hy2
  · exact le_refl _
  · exact (List.pairwise_cons.mp hI.qSorted).1 y hy2

/-- Every visited cell has `D` at most one more than any queued cell. -/
theorem SolveInv.visBand {m : Maze} {q : List Coord} {vis : Coord → Bool}
    {par : Coord → Option Coord} {D : Coord → Nat}
    (hI : SolveInv m q vis par D) :
    ∀ x, vis x = true → ∀ y ∈ q, D x ≤ D y + 1 := by
  intro x hx y hy
  by_cases hxq : x ∈ q
  · exact hI.qBand x hxq y hy
  · exact le_trans (hI.settleLe x hx hxq y hy) (Nat.le_succ _)

/-- Key lower bound: any walk from `start` through open cells to a visited
cell `y` takes at least `D y` steps, and any walk to an unvisited cell
requires a non-empty queue and takes strictly more steps than the `D` value
of its head. -/
theorem SolveInv.walk_lower {m : Maze} {q : List Coord} {vis : Coord → Bool}
    {par : Coord → Option Coord} {D : Coord → Nat}
    (hI : SolveInv m q vis par D) :
    ∀ {y : Coord} {n : Nat}, WalkTo (openCell m) m.start y n →
      (vis y = true → D y ≤ n) ∧
      (vis y = false → ∃ v1 rest, q = v1 :: rest ∧ D v1 + 1 ≤ n) := by
  intro y n hw
  induction hw with
  | single hO =>
    constructor
    · intro _
      rw [hI.startD]
    · intro hvs
      rw [hI.startV] at hvs
      exact Bool.noConfusion hvs
  | snoc hwz hadj hOy ih =>
    rename_i z c n2
    constructor
    · intro hvc
      cases hvz : vis z with
      | true =>
        by_cases hzq : z ∈ q
        · have h1 := hI.visBand c hvc z hzq
          have h2 := ih.1 hvz
          omega
        · have h2 := (hI.settleExp z hvz hzq c hadj hOy).2
          exact le_trans h2 (Nat.succ_le_succ ((ih.1) hvz))
      | false =>
        obtain ⟨v1, rest, hq, hv1⟩ := ih.2 hvz
        have h3 := hI.visBand c hvc v1 (hq ▸ List.mem_cons_self v1 rest)
        omega
    · intro hvc
      cases hvz : vis z with
      | true =>
        by_cases hzq : z ∈ q
        · cases q with
          | nil => exact absurd hzq (List.not_mem_nil z)
          | cons v1 rest =>
            refine ⟨v1, rest, rfl, ?_⟩
            have h1 := hI.head_min z hzq
            have h2 := ih.1 hvz
            omega
        · exact absurd (hI.settleExp z hvz hzq c hadj hOy).1 (by
            rw [hvc]
            exact Bool.noConfusion)
      | false =>
        obtain ⟨v1, rest, hq, hv1⟩ := ih.2 hvz
        exact ⟨v1, rest, hq, by omega⟩

/-- The in-bounds cells not yet visited, as a finite set (the BFS
termination measure). -/
def unvisSet (m : Maze) (vis : Coord → Bool) : Finset (Nat × Nat) :=
  ((Finset.range m.height.toNat) ×ˢ (Finset.range m.width.toNat)).filter
    (fun q => vis ((q.1 : Int), (q.2 : Int)) = false)

theorem mem_unvisSet {m : Maze} {vis : Coord → Bool} {q : Nat × Nat} :
    q ∈ unvisSet m vis ↔ q.1 < m.height.toNat ∧ q.2 < m.width.toNat ∧
      vis ((q.1 : Int), (q.2 : Int)) = false := by
  unfold unvisSet
  simp [Finset.mem_filter, Finset.mem_product, and_assoc]

theorem unvisSet_card_le (m : Maze) (vis : Coord → Bool) :
    (unvisSet m vis).card ≤ m.height.toNat * m.width.toNat := by
  calc (unvisSet m vis).card
      ≤ ((Finset.range m.height.toNat) ×ˢ (Finset.range m.width.toNat)).card :=
        Finset.card_filter_le _ _
    _ = m.height.toNat * m.width.toNat := by
        rw [Finset.card_product, Finset.card_range, Finset.card_range]

/-- Marking the duplicate-free list `news` of open unvisited cells visited
removes exactly `news.length` cells from the unvisited set. -/
theorem unvis_card_drop {m : Maze} {vis vis' : Coord → Bool} {news : List Coord}
    (hnd : news.Nodup)
    (hnews : ∀ nb ∈ news, vis nb = false ∧ openCell m nb)
    (hviff : ∀ x, (vis' x = true ↔ (vis x = true ∨ x ∈ news))) :
    (unvisSet m vis').card + news.length ≤ (unvisSet m vis).card := by
  have hback : ∀ p ∈ news, (((p.1.toNat : Int), (p.2.toNat : Int)) : Coord) = p := by
    intro p hp
    have hv := (hnews p hp).2.1
    rw [Maze.isValid_iff] at hv
    exact coord_ext (Int.toNat_of_nonneg hv.1) (Int.toNat_of_nonneg hv.2.2.1)
  have hinj : ∀ p ∈ news, ∀ p' ∈ news,
      (fun x : Coord => (x.1.toNat, x.2.toNat)) p = (fun x : Coord => (x.1.toNat, x.2.toNat)) p' →
        p = p' := by
    intro p hp p' hp' he
    have e1 := congrArg Prod.fst he
    have e2 := congrArg Prod.snd he
    dsimp only at e1 e2
    rw [← hback p hp, ← hback p' hp', e1, e2]
  have hndN : (news.map (fun x : Coord => (x.1.toNat, x.2.toNat))).Nodup :=
    List.Nodup.map_on hinj hnd
  have hsub : unvisSet m vis' ∪ (news.map (fun x : Coord => (x.1.toNat, x.2.toNat))).toFinset
      ⊆ unvisSet m vis := by
    intro a ha
    rcases Finset.mem_union.mp ha with ha | ha
    · rw [mem_unvisSet] at ha ⊢
      refine ⟨ha.1, ha.2.1, ?_⟩
      cases hv : vis ((a.1 : Int), (a.2 : Int)) with
      | false => rfl
      | true =>
        have h2 := (hviff _).mpr (Or.inl hv)
        rw [ha.2.2] at h2
        exact Bool.noConfusion h2
    · rw [List.mem_toFinset, List.mem_map] at ha
      obtain ⟨p, hp, hpa⟩ := ha
      rw [mem_unvisSet]
      have hv := (hnews p hp).2.1
      rw [Maze.isValid_iff] at hv
      subst hpa
      refine ⟨by dsimp only; omega, by dsimp only; omega, ?_⟩
      dsimp only
      rw [hback p hp]
      exact (hnews p hp).1
  have hdisj : Disjoint (unvisSet m vis')
      (news.map (fun x : Coord => (x.1.toNat, x.2.toNat))).toFinset := by
    rw [Finset.disjoint_left]
    intro a ha hb
    rw [List.mem_toFinset, List.mem_map] at hb
    obtain ⟨p, hp, hpa⟩ := hb
    rw [mem_unvisSet] at ha
    have h2 := (hviff p).mpr (Or.inr hp)
    subst hpa
    dsimp only at ha
    rw [hback p hp] at ha
    rw [ha.2.2] at h2
    exact Bool.noConfusion h2
  have hcard := Finset.card_union_of_disjoint hdisj
  have hle := Finset.card_le_card hsub
  rw [hcard] at hle
  have hlen : (news.map (fun x : Coord => (x.1.toNat, x.2.toNat))).toFinset.card
      = news.length := by
    rw [List.toFinset_card_of_nodup hndN, List.length_map]
  omega

/-- The invariant holds at the initial BFS state of `solve`. -/
theorem solveInv_init (m : Maze) :
    SolveInv m [m.start] (fun p => decide (p = m.start)) (fun _ => none) (fun _ => 0) := by
  refine ⟨by simp, rfl, rfl, ?_, by simp, ?_, ?_, ?_, ?_, ?_, ?_⟩
  · intro x hx
    rw [List.mem_singleton] at hx
    subst hx
    simp
  · exact List.pairwise_singleton _ _
  · intro x hx y hy
    omega
  · intro x hvx hxq y hy
    exfalso
    apply hxq
    rw [List.mem_singleton]
    exact of_decide_eq_true hvx
  · intro x hvx hxq y hadj hopen
    exfalso
    apply hxq
    rw [List.mem_singleton]
    exact of_decide_eq_true hvx
  · intro x y h
    exact Option.noConfusion h
  · intro x hvx
    have hx := of_decide_eq_true hvx
    subst hx
    exact ParChain.base rfl

theorem solveLoop_succ_cons (fuel : Nat) (m : Maze) (cur : Coord) (rest : List Coord)
    (vis : Coord → Bool) (par : Coord → Option Coord) :
    solveLoop (fuel + 1) m (cur :: rest) vis par =
      if cur = m.endPos then some par
      else
        solveLoop fuel m (expandNbrs m cur solveDirections rest vis par).1
          (expandNbrs m cur solveDirections rest vis par).2.1
          (expandNbrs m cur solveDirections rest vis par).2.2 := rfl

theorem solveLoop_succ_nil (fuel : Nat) (m : Maze) (vis : Coord → Bool)
    (par : Coord → Option Coord) : solveLoop (fuel + 1) m [] vis par = none := rfl

/-- One BFS dequeue-and-expand step preserves the invariant: the freshly
visited neighbours `news` go to the back of the queue at ghost distance
`D cur + 1`, and `cur` becomes settled with all its open neighbours
visited. -/
theorem SolveInv.step {m : Maze} {cur : Coord} {rest : List Coord} {vis : Coord → Bool}
    {par : Coord → Option Coord} {D : Coord → Nat}
    (hI : SolveInv m (cur :: rest) vis par D) :
    ∃ (news : List Coord) (D' : Coord → Nat),
      (expandNbrs m cur solveDirections rest vis par).1 = rest ++ news ∧
      (∀ x, ((expandNbrs m cur solveDirections rest vis par).2.1 x = true ↔
        (vis x = true ∨ x ∈ news))) ∧
      news.Nodup ∧
      (∀ nb ∈ news, vis nb = false ∧ openCell m nb) ∧
      SolveInv m (rest ++ news) (expandNbrs m cur solveDirections rest vis par).2.1
        (expandNbrs m cur solveDirections rest vis par).2.2 D' := by
  obtain ⟨news, hq, hnd, hmem, hviff, hpar, hex⟩ :=
    expandNbrs_spec m cur solveDirections rest vis par (fun d hd => adjStep_of_dir hd)
  have hcv : vis cur = true := hI.qVis cur (List.mem_cons_self cur rest)
  have hDmin : ∀ y ∈ cur :: rest, D cur ≤ D y := hI.head_min
  have hrestq : ∀ x ∈ rest, x ∈ cur :: rest := fun x hx => List.mem_cons_of_mem cur hx
  have hvisin : ∀ x, vis x = true → x ∉ news := by
    intro x hx hmm
    rw [(hmem x hmm).2.1] at hx
    exact Bool.noConfusion hx
  have hD'vis : ∀ x, vis x = true →
      (if x ∈ news then D cur + 1 else D x) = D x := by
    intro x hx
    rw [if_neg (hvisin x hx)]
  have hagree : ∀ x, vis x = true →
      (expandNbrs m cur solveDirections rest vis par).2.2 x = par x := by
    intro x hx
    rw [hpar x, if_neg (hvisin x hx)]
  refine ⟨news, (fun y => if y ∈ news then D cur + 1 else D y), hq, hviff, hnd,
    (fun nb hnb => ⟨(hmem nb hnb).2.1, (hmem nb hnb).1⟩), ?_, ?_, ?_, ?_, ?_, ?_, ?_, ?_, ?_, ?_, ?_⟩
  · exact (hviff m.start).mpr (Or.inl hI.startV)
  · rw [hagree m.start hI.startV]
    exact hI.startP
  · rw [hD'vis m.start hI.startV]
    exact hI.startD
  · intro x hx
    rcases List.mem_append.mp hx with hx | hx
    · exact (hviff x).mpr (Or.inl (hI.qVis x (hrestq x hx)))
    · exact (hviff x).mpr (Or.inr hx)
  · refine List.Nodup.append (List.nodup_cons.mp hI.qNd).2 hnd ?_
    intro a ha hb
    exact hvisin a (hI.qVis a (hrestq a ha)) hb
  · rw [List.pairwise_append]
    refine ⟨?_, ?_, ?_⟩
    · refine List.Pairwise.imp_of_mem ?_ (List.pairwise_cons.mp hI.qSorted).2
      intro a b ha hb hab
      rw [hD'vis a (hI.qVis a (hrestq a ha)), hD'vis b (hI.qVis b (hrestq b hb))]
      exact hab
    · refine List.Pairwise.imp_of_mem ?_ hnd
      intro a b ha hb _
      exact le_of_eq (by rw [if_pos ha, if_pos hb])
    · intro a ha b hb
      rw [hD'vis a (hI.qVis a (hrestq a ha)), if_pos hb]
      exact hI.qBand a (hrestq a ha) cur (List.mem_cons_self cur rest)
  · intro x hx y hy
    rcases List.mem_append.mp hx with hx | hx
    · rcases List.mem_append.mp hy with hy | hy
      · rw [hD'vis x (hI.qVis x (hrestq x hx)), hD'vis y (hI.qVis y (hrestq y hy))]
        exact hI.qBand x (hrestq x hx) y (hrestq y hy)
      · rw [hD'vis x (hI.qVis x (hrestq x hx)), if_pos hy]
        have := hI.qBand x (hrestq x hx) cur (List.mem_cons_self cur rest)
        omega
    · rcases List.mem_append.mp hy with hy | hy
      · rw [if_pos hx, hD'vis y (hI.qVis y (hrestq y hy))]
        have := hDmin y (hrestq y hy)
        omega
      · rw [if_pos hx, if_pos hy]
        omega
  · intro x hvx hxq y hy
    have hxrest : x ∉ rest := fun h => hxq (List.mem_append.mpr (Or.inl h))
    have hxnews : x ∉ news := fun h => hxq (List.mem_append.mpr (Or.inr h))
    have hvx2 : vis x = true := by
      rcases (hviff x).mp hvx with h | h
      · exact h
      · exact absurd h hxnews
    rw [hD'vis x hvx2]
    by_cases hxc : x = cur
    · subst hxc
      rcases List.mem_append.mp hy with hy | hy
      · rw [hD'vis y (hI.qVis y (hrestq y hy))]
        exact hDmin y (hrestq y hy)
      · rw [if_pos hy]
        exact Nat.le_succ _
    · have hxq2 : x ∉ cur :: rest := by
        intro h
        rcases List.mem_cons.mp h with h | h
        · exact hxc h
        · exact hxrest h
      rcases List.mem_append.mp hy with hy | hy
      · rw [hD'vis y (hI.qVis y (hrestq y hy))]
        exact hI.settleLe x hvx2 hxq2 y (hrestq y hy)
      · rw [if_pos hy]
        have := hI.settleLe x hvx2 hxq2 cur (List.mem_cons_self cur rest)
        omega
  · intro x hvx hxq y hadj hopen
    have hxrest : x ∉ rest := fun h => hxq (List.mem_append.mpr (Or.inl h))
    have hxnews : x ∉ news := fun h => hxq (List.mem_append.mpr (Or.inr h))
    have hvx2 : vis x = true := by
      rcases (hviff x).mp hvx with h | h
      · exact h
      · exact absurd h hxnews
    by_cases hxc : x = cur
    · have hxc2 : cur = x := hxc.symm
      subst hxc2
      have hyv : vis y = true ∨ y ∈ news := by
        rcases adjStep_cases hadj with ⟨h1, h2 | h2⟩ | ⟨h1, h2 | h2⟩
        · have hy : y = (cur.1 + (((0 : Int), (-1 : Int)) : Coord).1,
              cur.2 + (((0 : Int), (-1 : Int)) : Coord).2) :=
            Prod.ext (by dsimp only; omega) (by dsimp only; omega)
          have hres := hex ((0 : Int), (-1 : Int)) (by decide) (hy ▸ hopen)
          rw [← hy] at hres
          exact hres
        · have hy : y = (cur.1 + (((0 : Int), (1 : Int)) : Coord).1,
              cur.2 + (((0 : Int), (1 : Int)) : Coord).2) :=
            Prod.ext (by dsimp only; omega) (by dsimp only; omega)
          have hres := hex ((0 : Int), (1 : Int)) (by decide) (hy ▸ hopen)
          rw [← hy] at hres
          exact hres
        · have hy : y = (cur.1 + ((((-1) : Int), (0 : Int)) : Coord).1,
              cur.2 + ((((-1) : Int), (0 : Int)) : Coord).2) :=
            Prod.ext (by dsimp only; omega) (by dsimp only; omega)
          have hres := hex (((-1) : Int), (0 : Int)) (by decide) (hy ▸ hopen)
          rw [← hy] at hres
          exact hres
        · have hy : y = (cur.1 + (((1 : Int), (0 : Int)) : Coord).1,
              cur.2 + (((1 : Int), (0 : Int)) : Coord).2) :=
            Prod.ext (by dsimp only; omega) (by dsimp only; omega)
          have hres := hex ((1 : Int), (0 : Int)) (by decide) (hy ▸ hopen)
          rw [← hy] at hres
          exact hres
      rcases hyv with hvy | hny
      · refine ⟨(hviff y).mpr (Or.inl hvy), ?_⟩
        rw [hD'vis y hvy, hD'vis cur hcv]
        exact hI.visBand y hvy cur (List.mem_cons_self cur rest)
      · refine ⟨(hviff y).mpr (Or.inr hny), ?_⟩
        rw [if_pos hny, hD'vis cur hcv]
    · have hxq2 : x ∉ cur :: rest := by
        intro h
        rcases List.mem_cons.mp h with h | h
        · exact hxc h
        · exact hxrest h
      obtain ⟨hvy, hDy⟩ := hI.settleExp x hvx2 hxq2 y hadj hopen
      refine ⟨(hviff y).mpr (Or.inl hvy), ?_⟩
      rw [hD'vis y hvy, hD'vis x hvx2]
      exact hDy
  · intro x y h
    rw [hpar x] at h
    by_cases hx : x ∈ news
    · rw [if_pos hx] at h
      have := Option.some.inj h
      rw [← this]
      exact (hviff cur).mpr (Or.inl hcv)
    · rw [if_neg hx] at h
      exact (hviff y).mpr (Or.inl (hI.parVis x y h))
  · intro x hvx
    rcases (hviff x).mp hvx with hvx2 | hnx
    · rw [hD'vis x hvx2]
      exact ParChain.of_agree hI.startV hI.parVis hagree (hI.chain x hvx2) hvx2
    · rw [if_pos hnx]
      refine ParChain.step
        (ParChain.of_agree hI.startV hI.parVis hagree (hI.chain cur hcv) hcv) ?_
        (hmem x hnx).2.2
      rw [hpar x, if_pos hnx]

/-- Master theorem for the BFS `while queue:` loop.  Under the invariant,
with fuel exceeding the termination measure and `end` not yet settled: any
parent map the loop returns carries a chain to `end` no longer than any
open walk from `start` to `end`, and if such a walk exists at all the loop
does not return `none`. -/
theorem solveLoop_spec :
    ∀ (fuel : Nat) (m : Maze) (q : List Coord) (vis : Coord → Bool)
      (par : Coord → Option Coord) (D : Coord → Nat),
      SolveInv m q vis par D →
      (vis m.endPos = false ∨ m.endPos ∈ q) →
      q.length + (unvisSet m vis).card < fuel →
      ((∀ par', solveLoop fuel m q vis par = some par' →
          ∃ n, ParChain m par' m.endPos n ∧
            ∀ k, WalkTo (openCell m) m.start m.endPos k → n ≤ k) ∧
        (∀ k, WalkTo (openCell m) m.start m.endPos k →
          solveLoop fuel m q vis par ≠ none)) := by
  intro fuel
  induction fuel with
  | zero =>
    intro m q vis par D hI hend hfuel
    exact absurd hfuel (by omega)
  | succ fuel ih =>
    intro m q vis par D hI hend hfuel
    cases q with
    | nil =>
      constructor
      · intro par' hpar'
        rw [solveLoop_succ_nil] at hpar'
        exact Option.noConfusion hpar'
      · intro k hwalk hnone
        have hve : vis m.endPos = false := by
          rcases hend with h | h
          · exact h
          · exact absurd h (List.not_mem_nil _)
        obtain ⟨v1, rest, hq, _⟩ := (hI.walk_lower hwalk).2 hve
        exact List.noConfusion hq
    | cons cur rest =>
      by_cases hce : cur = m.endPos
      · rw [solveLoop_succ_cons, if_pos hce]
        constructor
        · intro par' hpar'
          have hpp : par = par' := Option.some.inj hpar'
          subst hpp
          refine ⟨D m.endPos, ?_, ?_⟩
          · have hv := hI.qVis cur (List.mem_cons_self cur rest)
            rw [hce] at hv
            exact hI.chain m.endPos hv
          · intro k hw
            have hv := hI.qVis cur (List.mem_cons_self cur rest)
            rw [hce] at hv
            exact (hI.walk_lower hw).1 hv
        · intro k hw h
          exact Option.noConfusion h
      · rw [solveLoop_succ_cons, if_neg hce]
        obtain ⟨news, D', hq, hviff, hnd, hnews, hI'⟩ := hI.step
        rw [hq]
        have hend' : (expandNbrs m cur solveDirections rest vis par).2.1 m.endPos = false ∨
            m.endPos ∈ rest ++ news := by
          rcases hend with h | h
          · by_cases hn : m.endPos ∈ news
            · exact Or.inr (List.mem_append.mpr (Or.inr hn))
            · left
              cases hv : (expandNbrs m cur solveDirections rest vis par).2.1 m.endPos with
              | false => rfl
              | true =>
                rcases (hviff m.endPos).mp hv with h2 | h2
                · rw [h] at h2
                  exact Bool.noConfusion h2
                · exact absurd h2 hn
          · rcases List.mem_cons.mp h with h | h
            · exact absurd h.symm hce
            · exact Or.inr (List.mem_append.mpr (Or.inl h))
        have hdrop := unvis_card_drop hnd hnews hviff
        have hfuel' : (rest ++ news).length +
            (unvisSet m (expandNbrs m cur solveDirections rest vis par).2.1).card
              < fuel := by
          rw [List.length_append]
          simp only [List.length_cons] at hfuel
          omega
        exact ih m (rest ++ news) (expandNbrs m cur solveDirections rest vis par).2.1
          (expandNbrs m cur solveDirections rest vis par).2.2 D' hI' hend' hfuel'

theorem solveInit_end (m : Maze) :
    (decide (m.endPos = m.start) : Bool) = false ∨ m.endPos ∈ ([m.start] : List Coord) := by
  by_cases h : m.endPos = m.start
  · right
    rw [h]
    exact List.mem_cons_self _ _
  · left
    exact decide_eq_false h

theorem solveInit_fuel (m : Maze) :
    ([m.start] : List Coord).length +
      (unvisSet m (fun p => decide (p = m.start))).card < solveFuel m := by
  have h := unvisSet_card_le m (fun p => decide (p = m.start))
  unfold solveFuel
  simp only [List.length_singleton]
  omega

/-- The master BFS theorem instantiated at the initial state of `solve`. -/
theorem solve_master (m : Maze) :
    (∀ par', solveLoop (solveFuel m) m [m.start]
        (fun p => decide (p = m.start)) (fun _ => none) = some par' →
        ∃ n, ParChain m par' m.endPos n ∧
          ∀ k, WalkTo (openCell m) m.start m.endPos k → n ≤ k) ∧
      (∀ k, WalkTo (openCell m) m.start m.endPos k →
        solveLoop (solveFuel m) m [m.start]
          (fun p => decide (p = m.start)) (fun _ => none) ≠ none) :=
  solveLoop_spec (solveFuel m) m [m.start] (fun p => decide (p = m.start))
    (fun _ => none) (fun _ => 0) (solveInv_init m) (solveInit_end m) (solveInit_fuel m)

/-- A start-to-end walk as described by the claim: non-empty, starting at
`start`, ending at `end`, consecutive cells 4-directionally adjacent, all
cells in bounds and not walls. -/
def ClaimWalk (m : Maze) (l : List Coord) : Prop :=
  l.head? = some m.start ∧ l.getLast? = some m.endPos ∧
    List.Chain' adjStep l ∧ ∀ p ∈ l, openCell m p

instance (m : Maze) (l : List Coord) : Decidable (ClaimWalk m l) :=
  inferInstanceAs (Decidable (l.head? = some m.start ∧ l.getLast? = some m.endPos ∧
    List.Chain' adjStep l ∧ ∀ p ∈ l, openCell m p))

/-- **C2**: for every grid state, whenever `solve()` returns a path, that
path's cell count is minimal among all start-to-end sequences of
4-directionally adjacent non-wall cells. -/
theorem C2_solve_minimal (m : Maze) (l : List Coord) (hl : m.solve = some l)
    (w : List Coord) (hw : ClaimWalk m w) : l.length ≤ w.length := by
  unfold Maze.solve at hl
  split at hl
  · exact Option.noConfusion hl
  rename_i par hloop
  split at hl
  · exact Option.noConfusion hl
  rename_i path hbt
  have hleq : l = path.reverse := (Option.some.inj hl).symm
  obtain ⟨n, hchain, hmin⟩ := (solve_master m).1 par hloop
  obtain ⟨hwh, hwl, hwc, hwo⟩ := hw
  have hwalk := WalkTo.of_list w m.start m.endPos hwh hwl hwc hwo
  have hnk : n ≤ w.length - 1 := hmin _ hwalk
  obtain ⟨l0, hL, hlen, -, -, -⟩ := backtrack_sound hchain _ _ _ hbt
  have hwne : w ≠ [] := by
    intro h
    rw [h] at hwh
    exact Option.noConfusion hwh
  have hwpos : 1 ≤ w.length := List.length_pos.mpr hwne
  rw [hleq, List.length_reverse, hL, List.nil_append, hlen]
  omega

/-- A hand-built `5 × 5` grid with a direct 3-cell route and a longer 7-cell
route from `start` to `end` around the central wall block, exercising the
minimality statement concretely. -/
def mzW : Maze :=
  { width := 5, height := 5,
    grid := fun p =>
      if p ∈ ([(1, 1), (1, 2), (1, 3), (2, 1), (2, 3), (3, 1), (3, 2), (3, 3)] : List Coord)
      then ' ' else '#',
    start := (1, 1), endPos := (1, 3) }

/-- Witness for C2 at the concrete grid `mzW`: `solve` returns the 3-cell
direct route, which is no longer than the 7-cell ring route. -/
theorem C2_solve_minimal_witness :
    mzW.solve = some [((1 : Int), (1 : Int)), (1, 2), (1, 3)] ∧
      ClaimWalk mzW
        [((1 : Int), (1 : Int)), (2, 1), (3, 1), (3, 2), (3, 3), (2, 3), (1, 3)] ∧
      ([((1 : Int), (1 : Int)), (1, 2), (1, 3)] : List Coord).length ≤
        ([((1 : Int), (1 : Int)), (2, 1), (3, 1), (3, 2), (3, 3), (2, 3), (1, 3)] :
          List Coord).length := by
  have hcw : ClaimWalk mzW
      [((1 : Int), (1 : Int)), (2, 1), (3, 1), (3, 2), (3, 3), (2, 3), (1, 3)] := by
    refine ⟨rfl, rfl, ?_, by decide⟩
    simp only [List.chain'_cons]
    exact ⟨by decide, by decide, by decide, by decide, by decide, by decide,
      List.chain'_singleton _⟩
  exact ⟨rfl, hcw, C2_solve_minimal mzW _ rfl _ hcw⟩

theorem validCoordList_length (m : Maze) :
    (validCoordList m).length = m.height.toNat * m.width.toNat := by
  unfold validCoordList
  rw [List.length_bind]
  have e : (List.map (List.length ∘ fun (r : Nat) => (List.range m.width.toNat).map
      (fun (c : Nat) => (((r : Int), (c : Int)) : Coord))) (List.range m.height.toNat))
      = List.replicate m.height.toNat m.width.toNat := by
    simp only [Function.comp_def, List.length_map, List.length_range]
    rw [List.map_const', List.length_range]
  rw [e, List.sum_replicate, smul_eq_mul]

/-- **C3**: on odd dimensions at least 3, `solve()` after a successful
`generate()` returns a non-`None` path whose first element is `start`, whose
last element is `end`, and whose consecutive elements differ by Manhattan
distance exactly 1. -/
theorem C3_solve_after_generate (w h : Int) (hw3 : 3 ≤ w) (hh3 : 3 ≤ h)
    (hwo : w % 2 = 1) (hho : h % 2 = 1) (cs : Nat → Nat) (m' : Maze)
    (hgen : (Maze.init w h).generate cs = some m') :
    ∃ l, m'.solve = some l ∧ l.head? = some m'.start ∧
      l.getLast? = some m'.endPos ∧ List.Chain' adjStep l := by
  obtain ⟨hfw, hfh, hfs, hfe, hD⟩ := generate_spec hw3 hh3 hwo hho cs hgen
  obtain ⟨lp, hlp, -⟩ := hD.unique m'.start m'.endPos hD.startO hD.endO
  have hopen : ∀ p ∈ lp, openCell m' p := by
    intro p hp
    have hO := hlp.mem_open p hp
    refine ⟨?_, hO⟩
    by_contra hv
    exact hO (hD.oob p hv)
  have hwalk : WalkTo (openCell m') m'.start m'.endPos (lp.length - 1) :=
    WalkTo.of_pathTo (hlp.restrict hopen)
  have hlplen : lp.length ≤ m'.height.toNat * m'.width.toNat := by
    have hsub : lp ⊆ validCoordList m' := by
      intro p hp
      exact mem_validCoordList.mpr (hopen p hp).1
    have hle := (List.subperm_of_subset hlp.nodup hsub).length_le
    rw [validCoordList_length] at hle
    exact hle
  have hlpos : 1 ≤ lp.length := List.length_pos.mpr hlp.ne_nil
  have hmaster := solve_master m'
  cases hloop : solveLoop (solveFuel m') m' [m'.start]
      (fun p => decide (p = m'.start)) (fun _ => none) with
  | none => exact absurd hloop (hmaster.2 _ hwalk)
  | some par =>
    obtain ⟨n, hchain, hmin⟩ := hmaster.1 par hloop
    have hn : n ≤ lp.length - 1 := hmin _ hwalk
    have hbt := backtrack_complete hchain (btFuel m') [] (by unfold btFuel; omega)
    cases hbteq : backtrack (btFuel m') par (some m'.endPos) [] with
    | none =>
      rw [hbteq] at hbt
      exact Bool.noConfusion hbt
    | some path =>
      obtain ⟨l0, hL, hlen, hhead, hlast, hch⟩ := backtrack_sound hchain _ _ _ hbteq
      rw [List.nil_append] at hL
      refine ⟨path.reverse, ?_, ?_, ?_, ?_⟩
      · unfold Maze.solve
        rw [hloop]
        dsimp only
        rw [hbteq]
      · rw [List.head?_reverse, hL]
        exact hlast
      · rw [List.getLast?_reverse, hL]
        exact hhead
      · rw [hL]
        exact hch

/-- Witness for C3 at the concrete input `(5, 5)` with the all-zero choice
stream. -/
theorem C3_solve_after_generate_witness :
    ∃ m', (Maze.init 5 5).generate (fun _ => 0) = some m' ∧
      ∃ l, m'.solve = some l ∧ l.head? = some m'.start ∧
        l.getLast? = some m'.endPos ∧ List.Chain' adjStep l := by
  have hs : ((Maze.init 5 5).generate (fun _ => 0)).isSome = true := rfl
  cases hgen : (Maze.init 5 5).generate (fun _ => 0) with
  | none =>
    rw [hgen] at hs
    cases hs
  | some m =>
    exact ⟨m, rfl, C3_solve_after_generate 5 5 (by norm_num) (by norm_num) (by norm_num)
      (by norm_num) (fun _ => 0) m hgen⟩

end MazeModel
